import Mathlib

/-!
# SMITH3: the RDM term (`rdm.h`, `rdm.cc`) and the output streams (`output.h`)

A shallow embedding of the class `smith::RDM`: the term data (factor, operator
list, delta map) and its non-virtual member functions `rank`, `done`,
`reduce_done`, `sort` and `operator==`; and of `smith::OutStream` with its
`operator<<`.

Conventions of the embedding.

* A `std::shared_ptr<Spin>` is used by the code only through pointer equality,
  so a spin is a handle (`Nat`), two spins being equal when they are the same
  object.
* A `std::shared_ptr<const Index>` is used only through the accessors `num()`,
  `dagger()`, `spin()` and through `identical`; an index is a record of these
  attributes.
* `fac_` is a `double` that `sort` only multiplies by `1` or `-1` (an exact
  operation on doubles: the sign changes or nothing does) and that
  `operator==` only compares; it is embedded as a rational number. Where the
  comparison of a NaN factor matters (reflexivity of `operator==`), the term
  is `RDMfp`, with `fac_` a `Double`.
* `cnt` is an `int` that counts indices of `index_`; it is embedded as a
  natural number, and `num()` as an integer.
* `assert` is a macro that is compiled out under `NDEBUG`; the functions that
  contain one take the flag `ndebug` and raise `Err.assertion` when the flag is
  off and the asserted condition is false.
* `sort` contains a `while` loop; `sortLoop` runs it with a bound on the number
  of passes, and `sortLoop_fuel_suffices` shows that the bound chosen by
  `RDM.sort` is never reached.
* A `std::stringstream` of `OutStream` is embedded as its text together with
  the put position, the error state and the padding state, on which an
  insertion depends.
-/

namespace smith

/-- Identity of a `Spin` object (the address held by a `shared_ptr<Spin>`). -/
abbrev Spin := Nat

/-- Modelled from the spec: the orbital-space tag of an operator index
(`index.h` is not among the sources). -/
inductive Space where
  | closed
  | active
  | virt
  | general
  deriving DecidableEq, Repr

/-- Modelled from the spec: the class `Index` of `index.h`, which is not among
the sources. The code of `rdm.cc` reads `num()`, `dagger()` and `spin()`. -/
structure Index where
  num : Int
  dagger : Bool
  spin : Spin
  space : Space
  deriving DecidableEq, Repr

/-- Modelled from the spec: `Index::identical` of `index.h`, which is not among
the sources; two indices are identical when they have the same index identity,
the integer `num`. -/
def Index.identical (a b : Index) : Bool :=
  decide (a.num = b.num)

/-- The data members of `class RDM`: `fac_`, `index_` and `delta_` (the entries
of the map, in key order). -/
structure RDM where
  fac_ : ℚ
  index_ : List Index
  delta_ : List (Index × Index)
  deriving DecidableEq

/-- The ways in which a member function can fail. -/
inductive Err where
  /-- An `assert` failed (only when `NDEBUG` is not defined). -/
  | assertion
  /-- The iterator `i` of `sort` reached `index_.end()` and was dereferenced. -/
  | deref_end
  /-- The exception `std::logic_error("RDM::sort()")`. -/
  | logic_error
  deriving DecidableEq, Repr

/-- `assert(c)` under the flag `ndebug`. -/
def cassert (ndebug : Bool) (c : Bool) : Except Err Unit :=
  if ndebug || c then pure () else throw Err.assertion

/-- A `double`: not-a-number, an infinity or a finite number (the two zeros
compare equal and are one value here). -/
inductive Double where
  | nan
  | neg_inf
  | pos_inf
  | finite (q : ℚ)
  deriving DecidableEq

/-- The comparison `==` of two doubles: a NaN is equal to nothing, itself
included. -/
def Double.eq : Double → Double → Bool
  | Double.nan, _ => false
  | _, Double.nan => false
  | a, b => decide (a = b)

/-- The data members of `class RDM` with `fac_` as the `double` that it is in
the source, for the one member function whose result depends on more than the
sign of `fac_`: `operator==`. -/
structure RDMfp where
  fac_ : Double
  index_ : List Index
  delta_ : List (Index × Index)
  deriving DecidableEq

/-- A `std::stringstream` member of `OutStream` (default-constructed, open for
reading and writing), with the state that an insertion depends on:
* `text`: the character sequence of the buffer, which `str()` returns;
* `pos`: the put position, counted from the start of `text`;
* `good`: no bit of the error state is set (`good()`);
* `width`, `fill`, `left`: the field width, the fill character and whether the
  adjustment is `left`, which pad the next formatted insertion.
The get position plays no part in `str()` or in an insertion and is left out. -/
structure StringStream where
  text : List Char
  pos : Nat
  good : Bool
  width : Nat
  fill : Char
  left : Bool
  deriving DecidableEq, Repr

namespace StringStream

/-- A default-constructed `std::stringstream`: empty, in the good state, with
field width 0, fill character space and no `left` adjustment. -/
def fresh : StringStream := ⟨[], 0, true, 0, ' ', false⟩

/-- The member `str() const`: the text of the buffer. -/
def str (s : StringStream) : List Char := s.text

/-- The member `str(x)`: the text becomes `x` and the put position goes to the
start (the stream is not open with `ate`). -/
def set_str (s : StringStream) (x : List Char) : StringStream :=
  ⟨x, 0, s.good, s.width, s.fill, s.left⟩

/-- The member `clear()`: the error state becomes `goodbit`. -/
def clear (s : StringStream) : StringStream :=
  ⟨s.text, s.pos, true, s.width, s.fill, s.left⟩

/-- The insertion `s << x` of a `std::string`: when the stream is not good
nothing is written (and `failbit` is set, so that it stays not good);
otherwise `x`, padded to the field width, is written at the put position,
over the characters that are there and beyond the end, the put position moves
behind it and the field width is reset. -/
def insert (s : StringStream) (x : List Char) : StringStream :=
  if s.good then
    let pad := List.replicate (s.width - x.length) s.fill
    let out := if s.left then x ++ pad else pad ++ x
    ⟨s.text.take s.pos ++ out ++ s.text.drop (s.pos + out.length), s.pos + out.length, true, 0,
      s.fill, s.left⟩
  else s

/-- The state in which insertions leave a stream: good, the put position at the
end of the text, field width 0. -/
def AtEnd (s : StringStream) : Prop :=
  s.good = true ∧ s.pos = s.text.length ∧ s.width = 0

instance : DecidablePred AtEnd := fun s => by
  unfold AtEnd
  infer_instance

end StringStream

/-- `struct OutStream` of `output.h`: the four string streams. -/
structure OutStream where
  ss : StringStream
  tt : StringStream
  cc : StringStream
  dd : StringStream
  deriving DecidableEq, Repr

namespace OutStream

/-- `OutStream()`: four default-constructed streams. -/
def empty : OutStream :=
  ⟨StringStream.fresh, StringStream.fresh, StringStream.fresh, StringStream.fresh⟩

/-- `OutStream(const OutStream& o)`: the text of every stream of `o` is
inserted into the new, default-constructed stream of the same name. -/
def copy (o : OutStream) : OutStream :=
  ⟨StringStream.fresh.insert o.ss.str, StringStream.fresh.insert o.tt.str,
    StringStream.fresh.insert o.cc.str, StringStream.fresh.insert o.dd.str⟩

/-- `OutStream::operator=`: every stream gets the empty text (`str(std::string())`),
then the good state (`clear()`), then the text of the stream of `a` of the same
name is inserted. The result is `*this` after the call. -/
def assign (self a : OutStream) : OutStream :=
  ⟨((self.ss.set_str []).clear).insert a.ss.str, ((self.tt.set_str []).clear).insert a.tt.str,
    ((self.cc.set_str []).clear).insert a.cc.str, ((self.dd.set_str []).clear).insert a.dd.str⟩

/-- `operator<<(OutStream& o, const OutStream& a)`: the text of every stream of
`a` is inserted into the stream of `o` of the same name; the result is `o`
after the call (`a` is a `const` reference and is not returned). -/
def operator_shl (o a : OutStream) : OutStream :=
  ⟨o.ss.insert a.ss.str, o.tt.insert a.tt.str, o.cc.insert a.cc.str, o.dd.insert a.dd.str⟩

/-- Every stream of `o` is in the state in which insertions leave a stream. -/
def AtEnd (o : OutStream) : Prop :=
  o.ss.AtEnd ∧ o.tt.AtEnd ∧ o.cc.AtEnd ∧ o.dd.AtEnd

instance : DecidablePred AtEnd := fun o => by
  unfold AtEnd
  infer_instance

/-- The value of `o` after `o.ss.str("abc")` on a new `OutStream`: the put
position of `ss` is at the start of its text. -/
def rewound : OutStream :=
  ⟨StringStream.fresh.set_str ['a', 'b', 'c'], StringStream.fresh, StringStream.fresh,
    StringStream.fresh⟩

/-- The value of `a` after `a.ss << "X"` on a new `OutStream`. -/
def letter : OutStream :=
  ⟨StringStream.fresh.insert ['X'], StringStream.fresh, StringStream.fresh,
    StringStream.fresh⟩

/-- The value of `o` after `o.ss << "ab"` and `o.cc << "c"` on a new `OutStream`. -/
def sample : OutStream :=
  ⟨StringStream.fresh.insert ['a', 'b'], StringStream.fresh, StringStream.fresh.insert ['c'],
    StringStream.fresh⟩

end OutStream

namespace RDM

/-- `RDM::factor()`. -/
def factor (t : RDM) : ℚ := t.fac_

/-- `RDM::index()`. -/
def index (t : RDM) : List Index := t.index_

/-- `RDM::delta()`. -/
def delta (t : RDM) : List (Index × Index) := t.delta_

/-- `RDM::rank()`: `assert(index_.size()%2 == 0); return index_.size()/2;`. -/
def rank (ndebug : Bool) (t : RDM) : Except Err Nat := do
  cassert ndebug (decide (t.index_.length % 2 = 0))
  pure (t.index_.length / 2)

/-- The `for` loop of `RDM::done`, from the position `cnt` on, with `prev` the
spin stored at the last even position (`none` for the null pointer). The
result is the final value of `out`. -/
def doneLoop : List Index → Nat → Option Spin → Bool
  | [], _, _ => true
  | i :: rest, cnt, prev =>
    if cnt % 2 = 0 then
      if !i.dagger then false
      else doneLoop rest (cnt + 1) (some i.spin)
    else
      if i.dagger || (some i.spin != prev) then false
      else doneLoop rest (cnt + 1) prev

/-- `RDM::done()`. -/
def done (ndebug : Bool) (t : RDM) : Except Err Bool := do
  cassert ndebug (decide (t.index_.length % 2 = 0))
  pure (doneLoop t.index_ 0 none)

/-- The inner loop of `RDM::reduce_done`: `out` becomes false when some index
from `j` on is a creation operator. -/
def reduce_inner : List Index → Bool → Bool
  | [], out => out
  | j :: rest, out => reduce_inner rest (if j.dagger then false else out)

/-- The outer loop of `RDM::reduce_done`, which stops at the first annihilation
operator that is not registered in `done`. -/
def reduce_outer (done : List Int) : List Index → Bool → Bool
  | [], out => out
  | i :: rest, out =>
    if !i.dagger && !(done.contains i.num) then reduce_inner (i :: rest) out
    else reduce_outer done rest out

/-- `RDM::reduce_done(done)`. -/
def reduce_done (t : RDM) (done : List Int) : Bool :=
  reduce_outer done t.index_ true

/-- The loop of `RDM::operator==` over the two index lists, entered only when
they have the same length: `out &= (*i)->identical(*j)`. -/
def eqLoop : List Index → List Index → Bool → Bool
  | i :: is, j :: js, out => eqLoop is js (out && i.identical j)
  | _, _, out => out

/-- `RDM::operator==` on terms whose factors are finite numbers; the
comparison of factors that may be NaN is `RDMfp.operator_eq`. -/
def operator_eq (t o : RDM) : Bool :=
  let out := true
  let out := out && decide (t.fac_ = o.factor)
  let out := out && decide (t.index_.length = o.index.length)
  let out := out && decide (t.delta_.length = o.delta.length)
  if t.index_.length = o.index.length then
    eqLoop t.index_ o.index out
  else
    out && false

/-- The first `for` loop of `RDM::sort`: indices whose spin is already in
`done_spin` are appended to `buf`; the loop stops at the first other index.
The result is `buf` and the part of `index_` from the iterator `i` on. -/
def scanLoop (done_spin : List Spin) : List Index → List Index → List Index × List Index
  | [], buf => (buf, [])
  | i :: rest, buf =>
    if done_spin.contains i.spin then scanLoop done_spin rest (buf ++ [i])
    else (buf, i :: rest)

/-- The local variables `buf`, `cnt` and `found` of the block of `RDM::sort`. -/
structure Move where
  buf : List Index
  cnt : Nat
  found : Bool
  deriving DecidableEq

/-- The loop of `RDM::sort` for a creation operator `i` of spin `cs`: it is put
right before each later index of the same spin. -/
def daggerLoop (ndebug : Bool) (cs : Spin) (i : Index) : List Index → Move → Except Err Move
  | [], m => pure m
  | j :: rest, m =>
    if j.spin = cs then do
      let buf := (m.buf ++ [i]) ++ [j]
      cassert ndebug (!j.dagger)
      daggerLoop ndebug cs i rest ⟨buf, m.cnt, true⟩
    else
      daggerLoop ndebug cs i rest ⟨m.buf ++ [j], if !m.found then m.cnt + 1 else m.cnt, m.found⟩

/-- The loop of `RDM::sort` for an annihilation operator `i` of spin `cs`: it
is put right after each later index of the same spin. -/
def nodaggerLoop (ndebug : Bool) (cs : Spin) (i : Index) : List Index → Move → Except Err Move
  | [], m => pure m
  | j :: rest, m =>
    if j.spin = cs then do
      let buf := m.buf ++ [j]
      cassert ndebug j.dagger
      nodaggerLoop ndebug cs i rest ⟨buf ++ [i], m.cnt + 1, true⟩
    else
      nodaggerLoop ndebug cs i rest ⟨m.buf ++ [j], if !m.found then m.cnt + 1 else m.cnt, m.found⟩

/-- The outcome of one pass of the `while` loop of `RDM::sort`, or of the whole
function: the object and `done_spin` at the end, or the failure and the object
at the moment of the failure. -/
inductive SortResult where
  | returned (t : RDM) (done_spin : List Spin)
  | failed (e : Err) (t : RDM)
  | unfinished
  deriving DecidableEq

/-- The block of `RDM::sort` that moves the index `i`, the first one with an
unprocessed spin, next to the later indices of the same spin: `rest` is the
part of `index_` after `i`, `buf` what the first loop has collected. -/
def moveBlock (ndebug : Bool) (i : Index) (rest buf : List Index) : Except Err Move :=
  let cs := i.spin
  let dagger := i.dagger
  if dagger then daggerLoop ndebug cs i rest ⟨buf, 0, false⟩
  else nodaggerLoop ndebug cs i rest ⟨buf, 0, false⟩

/-- The body of the `while` loop of `RDM::sort`. -/
def sortPass (ndebug : Bool) (t : RDM) (done_spin : List Spin) : SortResult :=
  match scanLoop done_spin t.index_ [] with
  | (_, []) => SortResult.failed Err.deref_end t
  | (buf, i :: rest) =>
    match moveBlock ndebug i rest buf with
    | Except.error e => SortResult.failed e t
    | Except.ok m =>
      let t1 : RDM := ⟨t.fac_ * (if m.cnt % 2 = 1 then -1 else 1), t.index_, t.delta_⟩
      let done_spin1 := done_spin ++ [i.spin]
      if t1.index_.length ≠ m.buf.length then SortResult.failed Err.logic_error t1
      else SortResult.returned ⟨t1.fac_, m.buf, t1.delta_⟩ done_spin1

/-- The `while (!done())` loop of `RDM::sort`, run for at most `fuel` tests of
its condition. -/
def sortLoop (ndebug : Bool) : Nat → RDM → List Spin → SortResult
  | 0, _, _ => SortResult.unfinished
  | fuel + 1, t, done_spin =>
    match t.done ndebug with
    | Except.error e => SortResult.failed e t
    | Except.ok true => SortResult.returned t done_spin
    | Except.ok false =>
      match sortPass ndebug t done_spin with
      | SortResult.returned t1 done_spin1 => sortLoop ndebug fuel t1 done_spin1
      | r => r

/-- `RDM::sort()`. Every pass of the loop adds to `done_spin` the spin of an
index of `index_` that was not in it, so that the loop condition is tested at
most `index_.size() + 1` times. -/
def sort (ndebug : Bool) (t : RDM) : SortResult :=
  sortLoop ndebug (t.index_.length + 1) t []

/-- The aligned form `a0+ a0 a1+ a1 ...` read two indices at a time: a creation
operator followed by an annihilation operator of the same spin. A last index
without a successor only has to be a creation operator. -/
def aligned : List Index → Bool
  | [] => true
  | [c] => c.dagger
  | c :: a :: rest => c.dagger && !a.dagger && decide (c.spin = a.spin) && aligned rest

/-- An unresolved annihilation operator of `l` stands before a creation
operator of `l`. -/
def Blocked (done : List Int) (l : List Index) : Prop :=
  ∃ (i j : Nat) (x y : Index), i < j ∧ l[i]? = some x ∧ l[j]? = some y ∧
    x.dagger = false ∧ x.num ∉ done ∧ y.dagger = true

/-- A well-formed term: an even number of pairwise distinct indices, every spin
tag of the list carried by exactly one creation and one annihilation operator. -/
def WellFormed (l : List Index) : Prop :=
  l.length % 2 = 0 ∧ l.Nodup ∧
    ∀ x ∈ l, l.countP (fun y => decide (y.spin = x.spin) && y.dagger) = 1 ∧
      l.countP (fun y => decide (y.spin = x.spin) && !y.dagger) = 1

instance : DecidablePred WellFormed := fun l => by
  unfold WellFormed
  infer_instance

/-- The list on the right is reached from the list on the left by `k`
transpositions of two adjacent entries. -/
inductive AdjSwaps : List Index → Nat → List Index → Prop where
  | refl (l : List Index) : AdjSwaps l 0 l
  | step {l : List Index} {k : Nat} (A : List Index) (a b : Index) (B : List Index) :
      AdjSwaps l k (A ++ a :: b :: B) → AdjSwaps l (k + 1) (A ++ b :: a :: B)

/-- Number of inversions of a list of positions: the pairs that stand in
decreasing order. -/
def invCount : List Nat → Nat
  | [] => 0
  | a :: r => r.countP (fun b => decide (b < a)) + invCount r

/-- Sign of the permutation that takes the sequence `orig` to its
rearrangement `l`: every entry of `l` is replaced by its position in `orig`,
and the sign is `1` when the number of inversions is even, `-1` when it is odd. -/
def permSign (orig l : List Index) : ℚ :=
  if invCount (l.map (fun x => orig.indexOf x)) % 2 = 1 then -1 else 1

/-- The shape of `index_` between two passes of `sort`: a sequence of settled
pairs (a creation operator followed by the annihilation operator of the same
spin, the spin being in `done_spin`) and of single indices whose spin is not in
`done_spin`. -/
inductive Settled (done_spin : List Spin) : List Index → Prop where
  | nil : Settled done_spin []
  | pair (c a : Index) (rest : List Index) : c.dagger = true → a.dagger = false →
      c.spin = a.spin → c.spin ∈ done_spin → Settled done_spin rest →
      Settled done_spin (c :: a :: rest)
  | single (x : Index) (rest : List Index) : x.spin ∉ done_spin → Settled done_spin rest →
      Settled done_spin (x :: rest)

/-- Number of indices of `l` whose spin is not in `done_spin`. -/
def unsettled (done_spin : List Spin) (l : List Index) : Nat :=
  l.countP (fun y => !done_spin.contains y.spin)

/-- The creation operator `a0+` of the scenarios: number 0, spin tag 0. -/
def a0_cre : Index := ⟨0, true, 0, Space.active⟩

/-- The annihilation operator `a0`: number 1, spin tag 0. -/
def a0_ann : Index := ⟨1, false, 0, Space.active⟩

/-- The creation operator `b0+`: number 2, spin tag 1. -/
def b0_cre : Index := ⟨2, true, 1, Space.active⟩

/-- The annihilation operator `b0`: number 3, spin tag 1. -/
def b0_ann : Index := ⟨3, false, 1, Space.active⟩

/-- The aligned term `a0+ a0 b0+ b0` with factor 1. -/
def term_aligned : RDM := ⟨1, [a0_cre, a0_ann, b0_cre, b0_ann], []⟩

/-- The term `a0+ b0+ a0 b0` with factor 1. -/
def term_interleaved : RDM := ⟨1, [a0_cre, b0_cre, a0_ann, b0_ann], []⟩

/-- The term `a0+ b0+ b0 a0` with factor 1. -/
def term_nested : RDM := ⟨1, [a0_cre, b0_cre, b0_ann, a0_ann], []⟩

/-- The term `a0 b0+ b0 a0+` with factor 1. -/
def term_crossed : RDM := ⟨1, [a0_ann, b0_cre, b0_ann, a0_cre], []⟩

/-- The term `a0 b0 b0+ a0+` with factor 1. -/
def term_reversed : RDM := ⟨1, [a0_ann, b0_ann, b0_cre, a0_cre], []⟩

/-- The term `a0+ b0+ a0 b0` with factor 2 and one delta pair. -/
def term_with_delta : RDM := ⟨2, [a0_cre, b0_cre, a0_ann, b0_ann], [(a0_cre, b0_cre)]⟩

/-- The term `a0 a0+` with factor 1. -/
def term_swapped : RDM := ⟨1, [a0_ann, a0_cre], []⟩

/-- The object and `done_spin` at the tests of the condition of the `while`
loop of `sort()` called on `t0`: the state at the call, and the state left by
a pass that was started because `done()` was false and that completed. -/
inductive SortReach (ndebug : Bool) (t0 : RDM) : RDM → List Spin → Prop where
  | start : SortReach ndebug t0 t0 []
  | pass {t t1 : RDM} {ds ds1 : List Spin} : SortReach ndebug t0 t ds →
      t.done ndebug = Except.ok false →
      sortPass ndebug t ds = SortResult.returned t1 ds1 → SortReach ndebug t0 t1 ds1

/-- The creation index of the spin `s` in `orig` followed by the annihilation
index of the spin `s` in `orig`. -/
def pairOf (orig : List Index) (s : Spin) : List Index :=
  orig.filter (fun x => decide (x.spin = s) && x.dagger) ++
    orig.filter (fun x => decide (x.spin = s) && !x.dagger)

/-- The index `y` is the later one of its spin: an index of the same spin
stands among the indices `seen` that come before it. -/
def isLater (seen : List Index) (y : Index) : Bool :=
  seen.any (fun x => decide (x.spin = y.spin))

/-- The closed form of the sorted sequence, read along the part of the input
that follows the indices `seen`: an index that is the earlier one of its spin
is dropped, an index that is the later one is replaced by the pair of
its spin in `orig`. -/
def closedFrom (orig : List Index) : List Index → List Index → List Index
  | _, [] => []
  | seen, y :: rest =>
    (if isLater seen y then pairOf orig y.spin else []) ++ closedFrom orig (seen ++ [y]) rest

/-- The closed form of the sequence that `sort()` produces from `l`. -/
def closedForm (l : List Index) : List Index :=
  closedFrom l [] l

/-- The spins of the indices that are the later one of their spin, in the
order of these indices, read along the part of the input after `seen`. -/
def laterSpinsFrom : List Index → List Index → List Spin
  | _, [] => []
  | seen, y :: rest =>
    (if isLater seen y then [y.spin] else []) ++ laterSpinsFrom (seen ++ [y]) rest

/-- The spins of `l` in the order in which their later indices occur in `l`. -/
def laterSpins (l : List Index) : List Spin :=
  laterSpinsFrom [] l

/-- The aligned term `b0+ b0 a0+ a0` with factor 1. -/
def term_pairs_swapped : RDM := ⟨1, [b0_cre, b0_ann, a0_cre, a0_ann], []⟩

/-- The term `b0+ a0+ a0 b0` with factor -1. -/
def term_outer : RDM := ⟨-1, [b0_cre, a0_cre, a0_ann, b0_ann], []⟩

end RDM

namespace RDMfp

/-- `RDM::operator==` with the factors compared as doubles. -/
def operator_eq (t o : RDMfp) : Bool :=
  let out := true
  let out := out && t.fac_.eq o.fac_
  let out := out && decide (t.index_.length = o.index_.length)
  let out := out && decide (t.delta_.length = o.delta_.length)
  if t.index_.length = o.index_.length then
    RDM.eqLoop t.index_ o.index_ out
  else
    out && false

end RDMfp

namespace RDM

/-- The term of the rational embedding as a term with a `double` factor: its
factor is a finite number. -/
def toFp (t : RDM) : RDMfp := ⟨Double.finite t.fac_, t.index_, t.delta_⟩

/-- The empty term with a NaN factor. -/
def term_nan : RDMfp := ⟨Double.nan, [], []⟩

/-! # Properties -/

/-! ## The loop of `done` -/

theorem doneLoop_eq_aligned : ∀ (l : List Index) (cnt : Nat) (prev : Option Spin),
    cnt % 2 = 0 → doneLoop l cnt prev = aligned l
  | [], _, _, _ => by simp [doneLoop, aligned]
  | [c], cnt, prev, h => by
    cases hc : c.dagger <;> simp [doneLoop, aligned, h, hc]
  | c :: a :: rest, cnt, prev, h => by
    have h1 : (cnt + 1) % 2 ≠ 0 := by omega
    have h2 : (cnt + 1 + 1) % 2 = 0 := by omega
    have ih := doneLoop_eq_aligned rest (cnt + 1 + 1) (some c.spin) h2
    cases hc : c.dagger
    · simp [doneLoop, aligned, h, hc]
    · cases ha : a.dagger
      · by_cases hs : c.spin = a.spin
        · have ih2 := ih
          rw [hs] at ih2
          simp [doneLoop, aligned, h, h1, hc, ha, hs, ih2]
        · have hs2 : ¬ a.spin = c.spin := fun e => hs e.symm
          simp [doneLoop, aligned, h, h1, hc, ha, hs, hs2]
      · simp [doneLoop, aligned, h, h1, hc, ha]

theorem aligned_iff : ∀ (l : List Index), l.length % 2 = 0 →
    (aligned l = true ↔ ∀ k, k < l.length / 2 →
      ∃ c a, l[2 * k]? = some c ∧ l[2 * k + 1]? = some a ∧
        c.dagger = true ∧ a.dagger = false ∧ c.spin = a.spin)
  | [], _ => by simp [aligned]
  | [c], h => by simp at h
  | c :: a :: rest, h => by
    have hrest : rest.length % 2 = 0 := by
      simp only [List.length_cons] at h
      omega
    have ih := aligned_iff rest hrest
    have hlen : (c :: a :: rest).length / 2 = rest.length / 2 + 1 := by
      simp only [List.length_cons]
      omega
    rw [hlen]
    constructor
    · intro hal k hk
      simp only [aligned, Bool.and_eq_true, Bool.not_eq_true', decide_eq_true_eq] at hal
      obtain ⟨⟨⟨hc, ha⟩, hs⟩, hr⟩ := hal
      cases k with
      | zero => exact ⟨c, a, by simp, by simp, hc, ha, hs⟩
      | succ k =>
        obtain ⟨c1, a1, h1, h2, h3⟩ := (ih.mp hr) k (by omega)
        refine ⟨c1, a1, ?_, ?_, h3⟩
        · have : 2 * (k + 1) = 2 * k + 1 + 1 := by ring
          rw [this]
          simpa using h1
        · have : 2 * (k + 1) + 1 = 2 * k + 1 + 1 + 1 := by ring
          rw [this]
          simpa using h2
    · intro hall
      simp only [aligned, Bool.and_eq_true, Bool.not_eq_true', decide_eq_true_eq]
      obtain ⟨c0, a0, h1, h2, hc, ha, hs⟩ := hall 0 (by omega)
      simp at h1 h2
      subst h1
      subst h2
      refine ⟨⟨⟨hc, ha⟩, hs⟩, ih.mpr ?_⟩
      intro k hk
      obtain ⟨c1, a1, h1, h2, h3⟩ := hall (k + 1) (by omega)
      refine ⟨c1, a1, ?_, ?_, h3⟩
      · have : 2 * (k + 1) = 2 * k + 1 + 1 := by ring
        rw [this] at h1
        simpa using h1
      · have : 2 * (k + 1) + 1 = 2 * k + 1 + 1 + 1 := by ring
        rw [this] at h2
        simpa using h2

theorem done_eq_of_even (ndebug : Bool) (t : RDM) (heven : t.index_.length % 2 = 0) :
    t.done ndebug = Except.ok (aligned t.index_) := by
  simp [done, cassert, heven, doneLoop_eq_aligned, bind, Except.bind, pure, Except.pure]

theorem rank_eq_of_even (ndebug : Bool) (t : RDM) (heven : t.index_.length % 2 = 0) :
    t.rank ndebug = Except.ok (t.index_.length / 2) := by
  simp [rank, cassert, heven, bind, Except.bind, pure, Except.pure]

/-! ## The loops of `reduce_done` -/

theorem reduce_inner_false : ∀ (l : List Index), reduce_inner l false = false
  | [] => rfl
  | j :: rest => by
    cases hj : j.dagger <;> simp [reduce_inner, hj, reduce_inner_false rest]

theorem reduce_inner_true_iff : ∀ (l : List Index),
    (reduce_inner l true = false ↔ ∃ y, y ∈ l ∧ y.dagger = true)
  | [] => by simp [reduce_inner]
  | j :: rest => by
    cases hj : j.dagger
    · simp [reduce_inner, hj, reduce_inner_true_iff rest]
    · simp [reduce_inner, hj, reduce_inner_false]

theorem blocked_cons_of_head (done : List Int) (a : Index) (rest : List Index)
    (ha : a.dagger = false) (hd : a.num ∉ done) :
    (Blocked done (a :: rest) ↔ ∃ y, y ∈ rest ∧ y.dagger = true) := by
  constructor
  · rintro ⟨i, j, x, y, hij, hx, hy, -, -, hyd⟩
    cases j with
    | zero => omega
    | succ j =>
      simp only [List.getElem?_cons_succ] at hy
      exact ⟨y, List.getElem?_mem hy, hyd⟩
  · rintro ⟨y, hy, hyd⟩
    obtain ⟨n, hn⟩ := List.getElem?_of_mem hy
    exact ⟨0, n + 1, a, y, by omega, by simp, by simpa using hn, ha, hd, hyd⟩

theorem blocked_cons_of_not_head (done : List Int) (a : Index) (rest : List Index)
    (ha : ¬ (a.dagger = false ∧ a.num ∉ done)) :
    (Blocked done (a :: rest) ↔ Blocked done rest) := by
  constructor
  · rintro ⟨i, j, x, y, hij, hx, hy, hxd, hxn, hyd⟩
    cases i with
    | zero =>
      simp only [List.getElem?_cons_zero, Option.some.injEq] at hx
      subst hx
      exact absurd ⟨hxd, hxn⟩ ha
    | succ i =>
      cases j with
      | zero => omega
      | succ j =>
        simp only [List.getElem?_cons_succ] at hx hy
        exact ⟨i, j, x, y, by omega, hx, hy, hxd, hxn, hyd⟩
  · rintro ⟨i, j, x, y, hij, hx, hy, hxd, hxn, hyd⟩
    exact ⟨i + 1, j + 1, x, y, by omega, by simpa using hx, by simpa using hy, hxd, hxn, hyd⟩

theorem reduce_outer_iff (done : List Int) : ∀ (l : List Index),
    (reduce_outer done l true = false ↔ Blocked done l)
  | [] => by
    simp only [reduce_outer, Bool.true_eq_false, false_iff]
    rintro ⟨i, j, x, y, -, hx, -⟩
    simp at hx
  | a :: rest => by
    by_cases hc : a.dagger = false ∧ a.num ∉ done
    · have hcond : (!a.dagger && !(done.contains a.num)) = true := by
        simp [hc.1, hc.2]
      rw [blocked_cons_of_head done a rest hc.1 hc.2]
      have hred : reduce_outer done (a :: rest) true = reduce_inner rest true := by
        rw [reduce_outer, if_pos hcond, reduce_inner]
        simp [hc.1]
      rw [hred]
      exact reduce_inner_true_iff rest
    · have hcond : (!a.dagger && !(done.contains a.num)) = false := by
        cases hd : a.dagger
        · have : a.num ∈ done := by
            by_contra hn
            exact hc ⟨hd, hn⟩
          simp [this]
        · simp
      rw [blocked_cons_of_not_head done a rest hc]
      have hred : reduce_outer done (a :: rest) true = reduce_outer done rest true := by
        rw [reduce_outer, if_neg (by rw [hcond]; simp)]
      rw [hred]
      exact reduce_outer_iff done rest

/-! ## The loop of `operator==` -/

theorem eqLoop_false : ∀ (l m : List Index), eqLoop l m false = false
  | [], _ => by simp [eqLoop]
  | _ :: _, [] => by simp [eqLoop]
  | i :: is, j :: js => by simp [eqLoop, eqLoop_false is js]

theorem eqLoop_true_iff : ∀ (l m : List Index), l.length = m.length →
    (eqLoop l m true = true ↔
      ∀ k, k < l.length → ∃ a b, l[k]? = some a ∧ m[k]? = some b ∧ a.identical b = true)
  | [], [], _ => by simp [eqLoop]
  | [], _ :: _, h => by simp at h
  | _ :: _, [], h => by simp at h
  | i :: is, j :: js, h => by
    have hlen : is.length = js.length := by simpa using h
    have ih := eqLoop_true_iff is js hlen
    cases hij : i.identical j
    · simp only [eqLoop, hij, Bool.and_false, eqLoop_false, Bool.false_eq_true, false_iff]
      intro hall
      obtain ⟨a, b, ha, hb, hab⟩ := hall 0 (by simp)
      simp at ha hb
      subst ha
      subst hb
      simp [hij] at hab
    · simp only [eqLoop, hij, Bool.and_true, ih]
      constructor
      · intro hall k hk
        cases k with
        | zero => exact ⟨i, j, by simp, by simp, hij⟩
        | succ k =>
          obtain ⟨a, b, ha, hb, hab⟩ := hall k (by simpa using hk)
          exact ⟨a, b, by simpa using ha, by simpa using hb, hab⟩
      · intro hall k hk
        obtain ⟨a, b, ha, hb, hab⟩ := hall (k + 1) (by simpa using hk)
        exact ⟨a, b, by simpa using ha, by simpa using hb, hab⟩

/-! ## The loops of `sort` -/

theorem scanLoop_eq (ds : List Spin) : ∀ (l buf : List Index),
    scanLoop ds l buf =
      (buf ++ l.takeWhile (fun i => ds.contains i.spin),
        l.dropWhile (fun i => ds.contains i.spin))
  | [], buf => by simp [scanLoop]
  | i :: rest, buf => by
    by_cases h : i.spin ∈ ds
    · simp [scanLoop, h, List.takeWhile, List.dropWhile, scanLoop_eq ds rest]
    · simp [scanLoop, h, List.takeWhile, List.dropWhile]

theorem daggerLoop_skip (nd : Bool) (cs : Spin) (i : Index) : ∀ (A R : List Index) (m : Move),
    (∀ y ∈ A, y.spin ≠ cs) →
    daggerLoop nd cs i (A ++ R) m =
      daggerLoop nd cs i R ⟨m.buf ++ A, if !m.found then m.cnt + A.length else m.cnt, m.found⟩
  | [], R, m, _ => by
    obtain ⟨b, c, f⟩ := m
    cases f <;> simp
  | a :: A, R, m, h => by
    have ha : a.spin ≠ cs := h a (by simp)
    have hA : ∀ y ∈ A, y.spin ≠ cs := fun y hy => h y (by simp [hy])
    rw [List.cons_append, daggerLoop, if_neg ha, daggerLoop_skip nd cs i A R _ hA]
    cases hf : m.found <;> simp [hf, Nat.add_assoc, Nat.add_comm 1]

theorem nodaggerLoop_skip (nd : Bool) (cs : Spin) (i : Index) : ∀ (A R : List Index) (m : Move),
    (∀ y ∈ A, y.spin ≠ cs) →
    nodaggerLoop nd cs i (A ++ R) m =
      nodaggerLoop nd cs i R ⟨m.buf ++ A, if !m.found then m.cnt + A.length else m.cnt, m.found⟩
  | [], R, m, _ => by
    obtain ⟨b, c, f⟩ := m
    cases f <;> simp
  | a :: A, R, m, h => by
    have ha : a.spin ≠ cs := h a (by simp)
    have hA : ∀ y ∈ A, y.spin ≠ cs := fun y hy => h y (by simp [hy])
    rw [List.cons_append, nodaggerLoop, if_neg ha, nodaggerLoop_skip nd cs i A R _ hA]
    cases hf : m.found <;> simp [hf, Nat.add_assoc, Nat.add_comm 1]

theorem daggerLoop_nil (nd : Bool) (cs : Spin) (i : Index) (m : Move) :
    daggerLoop nd cs i [] m = Except.ok m := rfl

theorem nodaggerLoop_nil (nd : Bool) (cs : Spin) (i : Index) (m : Move) :
    nodaggerLoop nd cs i [] m = Except.ok m := rfl

theorem daggerLoop_skip_all (nd : Bool) (cs : Spin) (i : Index) (B : List Index) (m : Move)
    (hB : ∀ y ∈ B, y.spin ≠ cs) :
    daggerLoop nd cs i B m =
      Except.ok ⟨m.buf ++ B, if !m.found then m.cnt + B.length else m.cnt, m.found⟩ := by
  have h := daggerLoop_skip nd cs i B [] m hB
  rw [daggerLoop_nil] at h
  rw [← h, List.append_nil]

theorem nodaggerLoop_skip_all (nd : Bool) (cs : Spin) (i : Index) (B : List Index) (m : Move)
    (hB : ∀ y ∈ B, y.spin ≠ cs) :
    nodaggerLoop nd cs i B m =
      Except.ok ⟨m.buf ++ B, if !m.found then m.cnt + B.length else m.cnt, m.found⟩ := by
  have h := nodaggerLoop_skip nd cs i B [] m hB
  rw [nodaggerLoop_nil] at h
  rw [← h, List.append_nil]

/-- The creation-operator loop on a tail with exactly one index of spin `cs`. -/
theorem daggerLoop_closed (nd : Bool) (cs : Spin) (i j : Index) (A B buf : List Index)
    (hA : ∀ y ∈ A, y.spin ≠ cs) (hB : ∀ y ∈ B, y.spin ≠ cs) (hj : j.spin = cs)
    (hd : nd = true ∨ j.dagger = false) :
    daggerLoop nd cs i (A ++ j :: B) ⟨buf, 0, false⟩ =
      Except.ok ⟨buf ++ A ++ i :: j :: B, A.length, true⟩ := by
  rw [daggerLoop_skip nd cs i A _ _ hA, daggerLoop, if_pos hj]
  have hc : cassert nd (!j.dagger) = Except.ok () := by
    rcases hd with h | h <;> simp [cassert, h, pure, Except.pure]
  simp [hc, bind, Except.bind, daggerLoop_skip_all nd cs i B _ hB]

/-- The annihilation-operator loop on a tail with exactly one index of spin `cs`. -/
theorem nodaggerLoop_closed (nd : Bool) (cs : Spin) (i j : Index) (A B buf : List Index)
    (hA : ∀ y ∈ A, y.spin ≠ cs) (hB : ∀ y ∈ B, y.spin ≠ cs) (hj : j.spin = cs)
    (hd : nd = true ∨ j.dagger = true) :
    nodaggerLoop nd cs i (A ++ j :: B) ⟨buf, 0, false⟩ =
      Except.ok ⟨buf ++ A ++ j :: i :: B, A.length + 1, true⟩ := by
  rw [nodaggerLoop_skip nd cs i A _ _ hA, nodaggerLoop, if_pos hj]
  have hc : cassert nd j.dagger = Except.ok () := by
    rcases hd with h | h <;> simp [cassert, h, pure, Except.pure]
  simp [hc, bind, Except.bind, nodaggerLoop_skip_all nd cs i B _ hB]

theorem scanLoop_decomp (ds : List Spin) (pre rest : List Index) (i : Index)
    (hpre : ∀ y ∈ pre, y.spin ∈ ds) (hi : i.spin ∉ ds) :
    scanLoop ds (pre ++ i :: rest) [] = (pre, i :: rest) := by
  have h1 : ∀ y ∈ pre, (fun y : Index => ds.contains y.spin) y = true := by
    intro y hy
    simpa using hpre y hy
  have h2 : ¬ ((fun y : Index => ds.contains y.spin) i = true) := by
    simpa using hi
  rw [scanLoop_eq, List.takeWhile_append_of_pos h1, List.dropWhile_append_of_pos h1,
    List.takeWhile_cons_of_neg (p := fun y : Index => ds.contains y.spin) h2,
    List.dropWhile_cons_of_neg (p := fun y : Index => ds.contains y.spin) h2]
  simp

/-- One pass of `sort` when the first unsettled index is a creation operator
with exactly one later index of its spin. -/
theorem sortPass_dagger (nd : Bool) (t : RDM) (ds : List Spin) (pre A B : List Index)
    (i j : Index) (hl : t.index_ = pre ++ i :: (A ++ j :: B))
    (hpre : ∀ y ∈ pre, y.spin ∈ ds) (hi : i.spin ∉ ds)
    (hA : ∀ y ∈ A, y.spin ≠ i.spin) (hB : ∀ y ∈ B, y.spin ≠ i.spin) (hj : j.spin = i.spin)
    (hid : i.dagger = true) (hd : nd = true ∨ j.dagger = false) :
    sortPass nd t ds =
      SortResult.returned
        ⟨t.fac_ * (if A.length % 2 = 1 then -1 else 1), pre ++ A ++ i :: j :: B, t.delta_⟩
        (ds ++ [i.spin]) := by
  unfold sortPass
  rw [hl, scanLoop_decomp ds pre _ i hpre hi]
  simp only [moveBlock, hid, if_true, daggerLoop_closed nd i.spin i j A B pre hA hB hj hd]
  rw [if_neg]
  simp
  omega

/-- One pass of `sort` when the first unsettled index is an annihilation
operator with exactly one later index of its spin. -/
theorem sortPass_nodagger (nd : Bool) (t : RDM) (ds : List Spin) (pre A B : List Index)
    (i j : Index) (hl : t.index_ = pre ++ i :: (A ++ j :: B))
    (hpre : ∀ y ∈ pre, y.spin ∈ ds) (hi : i.spin ∉ ds)
    (hA : ∀ y ∈ A, y.spin ≠ i.spin) (hB : ∀ y ∈ B, y.spin ≠ i.spin) (hj : j.spin = i.spin)
    (hid : i.dagger = false) (hd : nd = true ∨ j.dagger = true) :
    sortPass nd t ds =
      SortResult.returned
        ⟨t.fac_ * (if (A.length + 1) % 2 = 1 then -1 else 1), pre ++ A ++ j :: i :: B, t.delta_⟩
        (ds ++ [i.spin]) := by
  unfold sortPass
  rw [hl, scanLoop_decomp ds pre _ i hpre hi]
  simp only [moveBlock, hid, Bool.false_eq_true, if_false,
    nodaggerLoop_closed nd i.spin i j A B pre hA hB hj hd]
  rw [if_neg]
  simp
  omega

/-! ## Adjacent transpositions and the sign of a rearrangement -/

theorem AdjSwaps.trans {l m n : List Index} {k k2 : Nat} (h1 : AdjSwaps l k m)
    (h2 : AdjSwaps m k2 n) : AdjSwaps l (k + k2) n := by
  induction h2 with
  | refl => exact h1
  | step A a b B _ ih => exact AdjSwaps.step A a b B ih

theorem AdjSwaps.append_left (P : List Index) {l m : List Index} {k : Nat}
    (h : AdjSwaps l k m) : AdjSwaps (P ++ l) k (P ++ m) := by
  induction h with
  | refl => exact AdjSwaps.refl _
  | step A a b B _ ih =>
    rw [← List.append_assoc] at ih ⊢
    exact AdjSwaps.step (P ++ A) a b B ih

theorem AdjSwaps.to_perm {l m : List Index} {k : Nat} (h : AdjSwaps l k m) : l.Perm m := by
  induction h with
  | refl => exact List.Perm.refl _
  | step A a b B _ ih =>
    exact ih.trans (List.Perm.append_left A (List.Perm.swap b a B))

/-- Moving `x` to the right past the entries of `A` takes `A.length` adjacent
transpositions. -/
theorem AdjSwaps.move (x : Index) : ∀ (A R : List Index),
    AdjSwaps (x :: (A ++ R)) A.length (A ++ x :: R)
  | [], R => AdjSwaps.refl _
  | a :: A, R => by
    have h1 : AdjSwaps (x :: a :: (A ++ R)) 1 (a :: x :: (A ++ R)) :=
      AdjSwaps.step [] x a (A ++ R) (AdjSwaps.refl _)
    have h2 : AdjSwaps (a :: x :: (A ++ R)) A.length (a :: (A ++ x :: R)) :=
      AdjSwaps.append_left [a] (AdjSwaps.move x A R)
    have h3 := AdjSwaps.trans h1 h2
    have hlen : (a :: A).length = 1 + A.length := by
      simp [Nat.add_comm]
    rw [hlen]
    exact h3

theorem invCount_append_perm : ∀ (P X Y : List Nat) (d e : Nat), X.Perm Y →
    invCount X + d = invCount Y + e → invCount (P ++ X) + d = invCount (P ++ Y) + e
  | [], _, _, _, _, _, h => h
  | p :: P, X, Y, d, e, hp, h => by
    have ih := invCount_append_perm P X Y d e hp h
    have hc : (P ++ X).countP (fun b => decide (b < p)) =
        (P ++ Y).countP (fun b => decide (b < p)) :=
      List.Perm.countP_eq _ (List.Perm.append_left P hp)
    have e1 : invCount (p :: P ++ X) =
        (P ++ X).countP (fun b => decide (b < p)) + invCount (P ++ X) := rfl
    have e2 : invCount (p :: P ++ Y) =
        (P ++ Y).countP (fun b => decide (b < p)) + invCount (P ++ Y) := rfl
    rw [e1, e2, hc]
    omega

theorem invCount_swap (P S : List Nat) (x y : Nat) (hxy : x < y) :
    invCount (P ++ y :: x :: S) = invCount (P ++ x :: y :: S) + 1 := by
  have h := invCount_append_perm P (y :: x :: S) (x :: y :: S) 0 1 (List.Perm.swap x y S) (by
    have h1 : decide (x < y) = true := by simpa using hxy
    have h2 : decide (y < x) = false := by simpa using Nat.le_of_lt hxy
    simp only [invCount, List.countP_cons, h1, h2]
    simp
    omega)
  simpa using h

/-- One adjacent transposition of two different positions changes the parity
of the number of inversions. -/
theorem invCount_swap_parity (P S : List Nat) (x y : Nat) (hxy : x ≠ y) :
    invCount (P ++ y :: x :: S) % 2 ≠ invCount (P ++ x :: y :: S) % 2 := by
  rcases Nat.lt_or_gt_of_ne hxy with h | h
  · rw [invCount_swap P S x y h]
    omega
  · rw [invCount_swap P S y x h]
    omega

theorem invCount_map_succ : ∀ (L : List Nat), invCount (L.map Nat.succ) = invCount L
  | [] => rfl
  | a :: L => by
    simp only [List.map_cons, invCount, invCount_map_succ L, List.countP_map]
    congr 1
    apply List.countP_congr
    intro x _
    simp

theorem invCount_positions : ∀ (l : List Index), l.Nodup →
    invCount (l.map (fun x => l.indexOf x)) = 0
  | [], _ => rfl
  | a :: l, h => by
    have hnd : l.Nodup := (List.nodup_cons.mp h).2
    have hnot : a ∉ l := (List.nodup_cons.mp h).1
    have hmap : l.map (fun x => (a :: l).indexOf x) =
        (l.map (fun x => l.indexOf x)).map Nat.succ := by
      rw [List.map_map]
      apply List.map_congr_left
      intro x hx
      have hne : a ≠ x := fun e => hnot (e ▸ hx)
      simp [List.indexOf_cons_ne l hne]
    simp only [List.map_cons, invCount, hmap, invCount_map_succ, invCount_positions l hnd,
      List.indexOf_cons_self]
    simp

theorem permSign_self (l : List Index) (h : l.Nodup) : permSign l l = 1 := by
  simp [permSign, invCount_positions l h]

theorem neg_one_pow_ite (n : Nat) : (if n % 2 = 1 then (-1 : ℚ) else 1) = (-1) ^ n := by
  rcases Nat.even_or_odd n with h | h
  · have h2 : n % 2 ≠ 1 := by
      have := Nat.even_iff.mp h
      omega
    rw [if_neg h2, Even.neg_one_pow h]
  · rw [if_pos (Nat.odd_iff.mp h), Odd.neg_one_pow h]

/-- The sign of a rearrangement reached by `k` adjacent transpositions of a
sequence of pairwise distinct entries is `(-1) ^ k`. -/
theorem permSign_of_adjSwaps {l m : List Index} {k : Nat} (hnd : l.Nodup)
    (h : AdjSwaps l k m) : permSign l m = (-1) ^ k := by
  induction h with
  | refl => simp [permSign_self l hnd]
  | step A a b B hprev ih =>
    have hperm := AdjSwaps.to_perm hprev
    have hnd2 : (A ++ a :: b :: B).Nodup := (List.Perm.nodup_iff hperm).mp hnd
    have hab : a ≠ b := by
      intro e
      subst e
      have h3 : (a :: a :: B).Nodup := (List.nodup_append.mp hnd2).2.1
      simp at h3
    have ha : a ∈ l := hperm.mem_iff.mpr (by simp)
    have hb : b ∈ l := hperm.mem_iff.mpr (by simp)
    have hidx : l.indexOf a ≠ l.indexOf b := fun e => hab ((List.indexOf_inj ha hb).mp e)
    have hpar := invCount_swap_parity (A.map (fun x => l.indexOf x))
      (B.map (fun x => l.indexOf x)) (l.indexOf a) (l.indexOf b) hidx
    rw [permSign, neg_one_pow_ite] at ih ⊢
    simp only [List.map_append, List.map_cons] at ih ⊢
    rw [pow_succ, ← ih]
    rcases Nat.even_or_odd (invCount (List.map (fun x => l.indexOf x) A ++
        l.indexOf a :: l.indexOf b :: List.map (fun x => l.indexOf x) B)) with h1 | h1
    · have h2 : Odd (invCount (List.map (fun x => l.indexOf x) A ++
          l.indexOf b :: l.indexOf a :: List.map (fun x => l.indexOf x) B)) := by
        rw [Nat.odd_iff]
        have := Nat.even_iff.mp h1
        omega
      rw [Even.neg_one_pow h1, Odd.neg_one_pow h2]
      norm_num
    · have h2 : Even (invCount (List.map (fun x => l.indexOf x) A ++
          l.indexOf b :: l.indexOf a :: List.map (fun x => l.indexOf x) B)) := by
        rw [Nat.even_iff]
        have := Nat.odd_iff.mp h1
        omega
      rw [Odd.neg_one_pow h1, Even.neg_one_pow h2]
      norm_num

/-! ## Well-formed terms and the shape of `index_` between passes -/

theorem countP_one_decomp (p : Index → Bool) : ∀ (l : List Index), l.countP p = 1 →
    ∃ A j B, l = A ++ j :: B ∧ p j = true ∧ (∀ y ∈ A, p y = false) ∧ (∀ y ∈ B, p y = false)
  | [], h => by simp at h
  | a :: l, h => by
    cases hp : p a
    · have h2 : l.countP p = 1 := by
        simpa [List.countP_cons, hp] using h
      obtain ⟨A, j, B, hl, hj, hA, hB⟩ := countP_one_decomp p l h2
      refine ⟨a :: A, j, B, by simp [hl], hj, ?_, hB⟩
      intro y hy
      rcases List.mem_cons.mp hy with e | e
      · rw [e]
        exact hp
      · exact hA y e
    · have h2 : l.countP p = 0 := by
        simpa [List.countP_cons, hp] using h
      refine ⟨[], a, l, rfl, hp, by simp, ?_⟩
      intro y hy
      have := (List.countP_eq_zero.mp h2) y hy
      simpa using this

theorem WellFormed.of_perm {l m : List Index} (h : WellFormed l) (hp : l.Perm m) :
    WellFormed m := by
  obtain ⟨h1, h2, h3⟩ := h
  refine ⟨by rw [← hp.length_eq]; exact h1, (List.Perm.nodup_iff hp).mp h2, ?_⟩
  intro x hx
  have hx2 : x ∈ l := hp.mem_iff.mpr hx
  rw [← List.Perm.countP_eq _ hp, ← List.Perm.countP_eq _ hp]
  exact h3 x hx2

/-- In a well-formed sequence the first index of a spin is followed by exactly
one index of that spin, and that index has the other dagger flag. -/
theorem WellFormed.partner {l : List Index} (h : WellFormed l) (pre rest : List Index)
    (i : Index) (hl : l = pre ++ i :: rest) (hpre : ∀ y ∈ pre, y.spin ≠ i.spin) :
    ∃ A j B, rest = A ++ j :: B ∧ j.spin = i.spin ∧ j.dagger = !i.dagger ∧
      (∀ y ∈ A, y.spin ≠ i.spin) ∧ (∀ y ∈ B, y.spin ≠ i.spin) := by
  obtain ⟨-, -, h3⟩ := h
  obtain ⟨hd, hn⟩ := h3 i (by simp [hl])
  have hpd : pre.countP (fun y => decide (y.spin = i.spin) && y.dagger) = 0 := by
    rw [List.countP_eq_zero]
    intro y hy
    simp [hpre y hy]
  have hpn : pre.countP (fun y => decide (y.spin = i.spin) && !y.dagger) = 0 := by
    rw [List.countP_eq_zero]
    intro y hy
    simp [hpre y hy]
  rw [hl, List.countP_append, hpd, List.countP_cons] at hd
  rw [hl, List.countP_append, hpn, List.countP_cons] at hn
  cases hi : i.dagger
  · simp only [hi, decide_True, Bool.and_false, Bool.false_eq_true, if_false, Nat.zero_add,
      Nat.add_zero] at hd
    simp only [hi, decide_True, Bool.not_false, Bool.and_true, if_true, Nat.zero_add] at hn
    have hn0 : rest.countP (fun y => decide (y.spin = i.spin) && !y.dagger) = 0 := by omega
    obtain ⟨A, j, B, hr, hj, hA, hB⟩ := countP_one_decomp _ rest hd
    simp only [Bool.and_eq_true, decide_eq_true_eq] at hj
    have hz := List.countP_eq_zero.mp hn0
    refine ⟨A, j, B, hr, hj.1, by simp [hj.2], ?_, ?_⟩
    · intro y hy hs
      have h1 := hA y hy
      have h2 := hz y (by simp [hr, hy])
      cases hyd : y.dagger <;> simp [hs, hyd] at h1 h2
    · intro y hy hs
      have h1 := hB y hy
      have h2 := hz y (by simp [hr, hy])
      cases hyd : y.dagger <;> simp [hs, hyd] at h1 h2
  · simp only [hi, decide_True, Bool.and_true, if_true, Nat.zero_add] at hd
    simp only [hi, decide_True, Bool.not_true, Bool.and_false, Bool.false_eq_true, if_false,
      Nat.zero_add, Nat.add_zero] at hn
    have hd0 : rest.countP (fun y => decide (y.spin = i.spin) && y.dagger) = 0 := by omega
    obtain ⟨A, j, B, hr, hj, hA, hB⟩ := countP_one_decomp _ rest hn
    simp only [Bool.and_eq_true, decide_eq_true_eq, Bool.not_eq_true'] at hj
    have hz := List.countP_eq_zero.mp hd0
    refine ⟨A, j, B, hr, hj.1, by simp [hj.2], ?_, ?_⟩
    · intro y hy hs
      have h1 := hA y hy
      have h2 := hz y (by simp [hr, hy])
      cases hyd : y.dagger <;> simp [hs, hyd] at h1 h2
    · intro y hy hs
      have h1 := hB y hy
      have h2 := hz y (by simp [hr, hy])
      cases hyd : y.dagger <;> simp [hs, hyd] at h1 h2

theorem Settled.append {ds : List Spin} {P Q : List Index} (hP : Settled ds P)
    (hQ : Settled ds Q) : Settled ds (P ++ Q) := by
  induction hP with
  | nil => exact hQ
  | pair c a rest h1 h2 h3 h4 _ ih => exact Settled.pair c a (rest ++ Q) h1 h2 h3 h4 ih
  | single x rest h1 _ ih => exact Settled.single x (rest ++ Q) h1 ih

/-- Settling one more spin that does not occur in the sequence keeps its shape. -/
theorem Settled.push {ds : List Spin} {l : List Index} (cs : Spin) (h : Settled ds l)
    (hl : ∀ y ∈ l, y.spin ≠ cs) : Settled (ds ++ [cs]) l := by
  induction h with
  | nil => exact Settled.nil
  | pair c a rest h1 h2 h3 h4 _ ih =>
    exact Settled.pair c a rest h1 h2 h3 (by simp [h4])
      (ih (fun y hy => hl y (by simp [hy])))
  | single x rest h1 _ ih =>
    refine Settled.single x rest ?_ (ih (fun y hy => hl y (by simp [hy])))
    have := hl x (by simp)
    simp [h1, this]

/-- A sequence of settled pairs and single indices either consists of settled
pairs only, and then it is aligned, or it has a first single index. -/
theorem Settled.first {ds : List Spin} {l : List Index} (h : Settled ds l) :
    (aligned l = true ∧ l.length % 2 = 0) ∨
      ∃ pre i rest, l = pre ++ i :: rest ∧ Settled ds pre ∧ (∀ y ∈ pre, y.spin ∈ ds) ∧
        i.spin ∉ ds ∧ Settled ds rest := by
  induction h with
  | nil => exact Or.inl ⟨rfl, rfl⟩
  | pair c a rest h1 h2 h3 h4 hr ih =>
    rcases ih with ⟨hal, hev⟩ | ⟨pre, i, rest2, hl, hp, hpre, hi, hrest⟩
    · left
      refine ⟨by simp [aligned, h1, h2, h3, hal], ?_⟩
      simp only [List.length_cons]
      omega
    · right
      refine ⟨c :: a :: pre, i, rest2, by simp [hl],
        Settled.pair c a pre h1 h2 h3 h4 hp, ?_, hi, hrest⟩
      intro y hy
      rcases List.mem_cons.mp hy with e | e
      · rw [e]
        exact h4
      · rcases List.mem_cons.mp e with e2 | e2
        · rw [e2, ← h3]
          exact h4
        · exact hpre y e2
  | single x rest h1 hr _ =>
    exact Or.inr ⟨[], x, rest, rfl, Settled.nil, by simp, h1, hr⟩

/-- A single index splits the sequence into two sequences of the same shape. -/
theorem Settled.split {ds : List Spin} {l : List Index} (h : Settled ds l) :
    ∀ (A B : List Index) (j : Index), l = A ++ j :: B → j.spin ∉ ds →
      Settled ds A ∧ Settled ds B := by
  induction h with
  | nil =>
    intro A B j hl _
    simp at hl
  | pair c a rest h1 h2 h3 h4 hr ih =>
    intro A B j hl hj
    match A, hl with
    | [], hl =>
      simp only [List.nil_append, List.cons.injEq] at hl
      exact absurd (hl.1 ▸ h4) hj
    | [c2], hl =>
      simp only [List.cons_append, List.nil_append, List.cons.injEq] at hl
      exact absurd (hl.2.1 ▸ h3 ▸ h4) hj
    | c2 :: a2 :: A2, hl =>
      simp only [List.cons_append, List.cons.injEq] at hl
      obtain ⟨e1, e2, e3⟩ := hl
      obtain ⟨hA, hB⟩ := ih A2 B j e3 hj
      subst e1
      subst e2
      exact ⟨Settled.pair c a A2 h1 h2 h3 h4 hA, hB⟩
  | single x rest h1 hr ih =>
    intro A B j hl hj
    match A, hl with
    | [], hl =>
      simp only [List.nil_append, List.cons.injEq] at hl
      rw [← hl.2]
      exact ⟨Settled.nil, hr⟩
    | x2 :: A2, hl =>
      simp only [List.cons_append, List.cons.injEq] at hl
      obtain ⟨e1, e2⟩ := hl
      obtain ⟨hA, hB⟩ := ih A2 B j e2 hj
      subst e1
      exact ⟨Settled.single x A2 h1 hA, hB⟩

/-! ## The `while` loop of `sort` on well-formed terms -/

theorem unsettled_push_of_ne (ds : List Spin) (cs : Spin) (l : List Index)
    (h : ∀ y ∈ l, y.spin ≠ cs) : unsettled (ds ++ [cs]) l = unsettled ds l := by
  unfold unsettled
  apply List.countP_congr
  intro y hy
  simp [h y hy]

theorem unsettled_append (ds : List Spin) (l m : List Index) :
    unsettled ds (l ++ m) = unsettled ds l + unsettled ds m := by
  simp [unsettled]

theorem unsettled_cons (ds : List Spin) (x : Index) (l : List Index) :
    unsettled ds (x :: l) = unsettled ds l + if x.spin ∈ ds then 0 else 1 := by
  by_cases h : x.spin ∈ ds <;> simp [unsettled, List.countP_cons, h]

theorem unsettled_le_length (ds : List Spin) (l : List Index) : unsettled ds l ≤ l.length :=
  List.countP_le_length _

/-- One pass of the loop on a well-formed term that is not aligned yet. -/
theorem sortPass_wf (nd : Bool) (t : RDM) (ds : List Spin) (hwf : WellFormed t.index_)
    (hs : Settled ds t.index_) (hal : aligned t.index_ = false) :
    ∃ t1 cs k, sortPass nd t ds = SortResult.returned t1 (ds ++ [cs]) ∧ cs ∉ ds ∧
      Settled (ds ++ [cs]) t1.index_ ∧ AdjSwaps t.index_ k t1.index_ ∧
      t1.fac_ = t.fac_ * (-1) ^ k ∧ t1.delta_ = t.delta_ ∧
      unsettled (ds ++ [cs]) t1.index_ + 2 = unsettled ds t.index_ := by
  rcases Settled.first hs with ⟨h, -⟩ | ⟨pre, i, rest, hl, hp, hpre, hi, hrest⟩
  · rw [h] at hal
    exact absurd hal (by simp)
  have hpre2 : ∀ y ∈ pre, y.spin ≠ i.spin := fun y hy e => hi (e ▸ hpre y hy)
  obtain ⟨A, j, B, hr, hj, hjd, hA, hB⟩ := WellFormed.partner hwf pre rest i hl hpre2
  have hjn : j.spin ∉ ds := by rw [hj]; exact hi
  obtain ⟨hsA, hsB⟩ := Settled.split hrest A B j hr hjn
  have hl2 : t.index_ = pre ++ i :: (A ++ j :: B) := by rw [hl, hr]
  have hin : i.spin ∈ ds ++ [i.spin] := by simp
  have hu : unsettled ds t.index_ =
      unsettled ds pre + unsettled ds A + unsettled ds B + 2 := by
    rw [hl2, unsettled_append, unsettled_cons, unsettled_append, unsettled_cons, if_neg hi,
      if_neg hjn]
    omega
  have hupre := unsettled_push_of_ne ds i.spin pre hpre2
  have huA := unsettled_push_of_ne ds i.spin A hA
  have huB := unsettled_push_of_ne ds i.spin B hB
  have hjin : j.spin ∈ ds ++ [i.spin] := by rw [hj]; exact hin
  cases hid : i.dagger
  · have hjd2 : j.dagger = true := by simpa [hid] using hjd
    refine ⟨_, i.spin, A.length + 1,
      sortPass_nodagger nd t ds pre A B i j hl2 hpre hi hA hB hj hid (Or.inr hjd2), hi, ?_, ?_,
      ?_, rfl, ?_⟩
    · have hpair : Settled (ds ++ [i.spin]) (j :: i :: B) :=
        Settled.pair j i B hjd2 hid hj hjin (Settled.push i.spin hsB hB)
      have := Settled.append (Settled.append (Settled.push i.spin hp hpre2)
        (Settled.push i.spin hsA hA)) hpair
      simpa using this
    · have hm := AdjSwaps.append_left pre (AdjSwaps.move i (A ++ [j]) B)
      rw [hl2]
      simpa using hm
    · show t.fac_ * (if (A.length + 1) % 2 = 1 then -1 else 1) = t.fac_ * (-1) ^ (A.length + 1)
      rw [neg_one_pow_ite]
    · show unsettled (ds ++ [i.spin]) (pre ++ A ++ j :: i :: B) + 2 = unsettled ds t.index_
      rw [hu, unsettled_append, unsettled_append, unsettled_cons, unsettled_cons, if_pos hin,
        if_pos hjin, hupre, huA, huB]
      omega
  · have hjd2 : j.dagger = false := by simpa [hid] using hjd
    refine ⟨_, i.spin, A.length,
      sortPass_dagger nd t ds pre A B i j hl2 hpre hi hA hB hj hid (Or.inr hjd2), hi, ?_, ?_,
      ?_, rfl, ?_⟩
    · have hpair : Settled (ds ++ [i.spin]) (i :: j :: B) :=
        Settled.pair i j B hid hjd2 hj.symm hin (Settled.push i.spin hsB hB)
      have := Settled.append (Settled.append (Settled.push i.spin hp hpre2)
        (Settled.push i.spin hsA hA)) hpair
      simpa using this
    · have hm := AdjSwaps.append_left pre (AdjSwaps.move i A (j :: B))
      rw [hl2]
      simpa using hm
    · show t.fac_ * (if A.length % 2 = 1 then -1 else 1) = t.fac_ * (-1) ^ A.length
      rw [neg_one_pow_ite]
    · show unsettled (ds ++ [i.spin]) (pre ++ A ++ i :: j :: B) + 2 = unsettled ds t.index_
      rw [hu, unsettled_append, unsettled_append, unsettled_cons, unsettled_cons, if_pos hin,
        if_pos hjin, hupre, huA, huB]
      omega

/-- The loop of `sort` on a well-formed term: it returns, within the passes
allowed by the number of unsettled indices, an aligned rearrangement. -/
theorem sortLoop_wf (nd : Bool) : ∀ (fuel : Nat) (t : RDM) (ds : List Spin),
    WellFormed t.index_ → Settled ds t.index_ → ds.Nodup →
    unsettled ds t.index_ < 2 * fuel →
    ∃ t2 ds2 k, sortLoop nd fuel t ds = SortResult.returned t2 ds2 ∧
      aligned t2.index_ = true ∧ AdjSwaps t.index_ k t2.index_ ∧
      t2.fac_ = t.fac_ * (-1) ^ k ∧ t2.delta_ = t.delta_ ∧ ds2.Nodup ∧
      2 * ds2.length ≤ 2 * ds.length + unsettled ds t.index_
  | 0, _, _, _, _, _, hu => by omega
  | fuel + 1, t, ds, hwf, hs, hnd, hu => by
    have hdone := done_eq_of_even nd t hwf.1
    cases hal : aligned t.index_
    · obtain ⟨t1, cs, k, hpass, hcs, hs1, hsw, hfac, hdel, hun⟩ :=
        sortPass_wf nd t ds hwf hs hal
      have hwf1 : WellFormed t1.index_ := hwf.of_perm hsw.to_perm
      have hnd1 : (ds ++ [cs]).Nodup := by
        rw [List.nodup_append]
        refine ⟨hnd, by simp, ?_⟩
        intro a ha hb
        simp only [List.mem_singleton] at hb
        subst hb
        exact hcs ha
      obtain ⟨t2, ds2, k2, hloop, hal2, hsw2, hfac2, hdel2, hnd2, hlen2⟩ :=
        sortLoop_wf nd fuel t1 (ds ++ [cs]) hwf1 hs1 hnd1 (by omega)
      refine ⟨t2, ds2, k + k2, ?_, hal2, hsw.trans hsw2, ?_, by rw [hdel2, hdel], hnd2, ?_⟩
      · rw [sortLoop, hdone, hal]
        simp only [hpass]
        exact hloop
      · rw [hfac2, hfac, pow_add, mul_assoc]
      · simp only [List.length_append, List.length_singleton] at hlen2
        omega
    · refine ⟨t, ds, 0, ?_, hal, AdjSwaps.refl _, by simp, rfl, hnd, by omega⟩
      rw [sortLoop, hdone, hal]

theorem sortLoop_returned_mono (nd : Bool) : ∀ (fuel n : Nat) (t t2 : RDM) (ds ds2 : List Spin),
    sortLoop nd fuel t ds = SortResult.returned t2 ds2 →
    sortLoop nd (fuel + n) t ds = SortResult.returned t2 ds2
  | 0, _, _, _, _, _, h => by simp [sortLoop] at h
  | fuel + 1, n, t, t2, ds, ds2, h => by
    have e : fuel + 1 + n = (fuel + n) + 1 := by omega
    rw [e]
    rw [sortLoop] at h ⊢
    cases hd : t.done nd with
    | error err => simp [hd] at h
    | ok b =>
      cases b with
      | true => simpa [hd] using h
      | false =>
        simp only [hd] at h ⊢
        cases hp : sortPass nd t ds with
        | returned t1 ds1 =>
          simp only [hp] at h ⊢
          exact sortLoop_returned_mono nd fuel n t1 t2 ds1 ds2 h
        | failed err t1 => simp [hp] at h
        | unfinished => simp [hp] at h

theorem settled_initial : ∀ (l : List Index), Settled [] l
  | [] => Settled.nil
  | x :: l => Settled.single x l (by simp) (settled_initial l)

/-- The outcome of `sort` on a well-formed term. -/
theorem sort_wf (nd : Bool) (t : RDM) (hwf : WellFormed t.index_) :
    ∃ t2 ds2 k, sort nd t = SortResult.returned t2 ds2 ∧
      sortLoop nd (t.index_.length / 2 + 1) t [] = SortResult.returned t2 ds2 ∧
      aligned t2.index_ = true ∧ AdjSwaps t.index_ k t2.index_ ∧
      t2.fac_ = t.fac_ * (-1) ^ k ∧ t2.delta_ = t.delta_ ∧ ds2.Nodup ∧
      ds2.length ≤ t.index_.length / 2 := by
  have hu : unsettled [] t.index_ < 2 * (t.index_.length / 2 + 1) := by
    have := unsettled_le_length [] t.index_
    omega
  obtain ⟨t2, ds2, k, hloop, hal, hsw, hfac, hdel, hnd, hlen⟩ :=
    sortLoop_wf nd (t.index_.length / 2 + 1) t [] hwf (settled_initial _) List.nodup_nil hu
  refine ⟨t2, ds2, k, ?_, hloop, hal, hsw, hfac, hdel, hnd, ?_⟩
  · have hm := sortLoop_returned_mono nd (t.index_.length / 2 + 1)
      (t.index_.length - t.index_.length / 2) t t2 [] ds2 hloop
    have e : t.index_.length / 2 + 1 + (t.index_.length - t.index_.length / 2) =
        t.index_.length + 1 := by omega
    rw [e] at hm
    exact hm
  · have := unsettled_le_length [] t.index_
    simp only [List.length_nil] at hlen
    omega

/-! ## The `while` loop of `sort` on arbitrary terms -/

theorem daggerLoop_count (nd : Bool) (cs : Spin) (i : Index) :
    ∀ (rest : List Index) (m m2 : Move), daggerLoop nd cs i rest m = Except.ok m2 →
      ∀ a, m2.buf.count a = m.buf.count a + rest.count a +
        (if i = a then rest.countP (fun y => decide (y.spin = cs)) else 0)
  | [], m, m2, h, a => by
    rw [daggerLoop_nil] at h
    cases h
    simp
  | j :: rest, m, m2, h, a => by
    by_cases hj : j.spin = cs
    · rw [daggerLoop, if_pos hj] at h
      cases hc : cassert nd (!j.dagger) with
      | error e => simp [hc, bind, Except.bind] at h
      | ok u =>
        simp only [hc, bind, Except.bind] at h
        have ih := daggerLoop_count nd cs i rest _ m2 h a
        rw [ih]
        simp only [List.count_append, List.count_cons, List.count_nil, List.countP_cons, hj,
          decide_True, if_true, beq_iff_eq]
        split_ifs <;> omega
    · rw [daggerLoop, if_neg hj] at h
      have ih := daggerLoop_count nd cs i rest _ m2 h a
      rw [ih]
      simp only [List.count_append, List.count_cons, List.count_nil, List.countP_cons, hj,
        decide_False, Bool.false_eq_true, if_false, beq_iff_eq]
      split_ifs <;> omega

theorem nodaggerLoop_count (nd : Bool) (cs : Spin) (i : Index) :
    ∀ (rest : List Index) (m m2 : Move), nodaggerLoop nd cs i rest m = Except.ok m2 →
      ∀ a, m2.buf.count a = m.buf.count a + rest.count a +
        (if i = a then rest.countP (fun y => decide (y.spin = cs)) else 0)
  | [], m, m2, h, a => by
    rw [nodaggerLoop_nil] at h
    cases h
    simp
  | j :: rest, m, m2, h, a => by
    by_cases hj : j.spin = cs
    · rw [nodaggerLoop, if_pos hj] at h
      cases hc : cassert nd j.dagger with
      | error e => simp [hc, bind, Except.bind] at h
      | ok u =>
        simp only [hc, bind, Except.bind] at h
        have ih := nodaggerLoop_count nd cs i rest _ m2 h a
        rw [ih]
        simp only [List.count_append, List.count_cons, List.count_nil, List.countP_cons, hj,
          decide_True, if_true, beq_iff_eq]
        split_ifs <;> omega
    · rw [nodaggerLoop, if_neg hj] at h
      have ih := nodaggerLoop_count nd cs i rest _ m2 h a
      rw [ih]
      simp only [List.count_append, List.count_cons, List.count_nil, List.countP_cons, hj,
        decide_False, Bool.false_eq_true, if_false, beq_iff_eq]
      split_ifs <;> omega

/-- The list built by either loop holds the entries of `buf` and of the tail,
and one copy of `i` for every index of the tail that has the spin of `i`. -/
theorem moveBlock_perm (nd : Bool) (i : Index) (rest buf : List Index) (m : Move)
    (h : moveBlock nd i rest buf = Except.ok m) :
    m.buf.Perm (buf ++ rest ++
      List.replicate (rest.countP (fun y => decide (y.spin = i.spin))) i) := by
  rw [List.perm_iff_count]
  intro a
  have hc : m.buf.count a = buf.count a + rest.count a +
      (if i = a then rest.countP (fun y => decide (y.spin = i.spin)) else 0) := by
    unfold moveBlock at h
    cases hd : i.dagger
    · simp only [hd, Bool.false_eq_true, if_false] at h
      exact nodaggerLoop_count nd i.spin i rest _ m h a
    · simp only [hd, if_true] at h
      exact daggerLoop_count nd i.spin i rest _ m h a
  rw [hc]
  simp only [List.count_append, List.count_replicate, beq_iff_eq]

/-- The four ways in which a pass of `sort` can end. -/
theorem sortPass_cases (nd : Bool) (t : RDM) (ds : List Spin) :
    (t.index_.dropWhile (fun i => ds.contains i.spin) = [] ∧
      sortPass nd t ds = SortResult.failed Err.deref_end t) ∨
    (∃ i rest e, t.index_.dropWhile (fun i => ds.contains i.spin) = i :: rest ∧
      moveBlock nd i rest (t.index_.takeWhile (fun i => ds.contains i.spin)) = Except.error e ∧
      sortPass nd t ds = SortResult.failed e t) ∨
    (∃ i rest m, t.index_.dropWhile (fun i => ds.contains i.spin) = i :: rest ∧
      moveBlock nd i rest (t.index_.takeWhile (fun i => ds.contains i.spin)) = Except.ok m ∧
      t.index_.length ≠ m.buf.length ∧
      sortPass nd t ds = SortResult.failed Err.logic_error
        ⟨t.fac_ * (if m.cnt % 2 = 1 then -1 else 1), t.index_, t.delta_⟩) ∨
    (∃ i rest m, t.index_.dropWhile (fun i => ds.contains i.spin) = i :: rest ∧
      moveBlock nd i rest (t.index_.takeWhile (fun i => ds.contains i.spin)) = Except.ok m ∧
      t.index_.length = m.buf.length ∧
      sortPass nd t ds = SortResult.returned
        ⟨t.fac_ * (if m.cnt % 2 = 1 then -1 else 1), m.buf, t.delta_⟩ (ds ++ [i.spin])) := by
  unfold sortPass
  rw [scanLoop_eq, List.nil_append]
  cases hdrop : t.index_.dropWhile (fun i => ds.contains i.spin) with
  | nil => exact Or.inl ⟨rfl, rfl⟩
  | cons i rest =>
    right
    cases hm : moveBlock nd i rest (t.index_.takeWhile (fun i => ds.contains i.spin)) with
    | error e => exact Or.inl ⟨i, rest, e, rfl, hm, by simp only [hm]⟩
    | ok m =>
      right
      by_cases hlen : t.index_.length = m.buf.length
      · refine Or.inr ⟨i, rest, m, rfl, hm, hlen, ?_⟩
        simp only [hm]
        rw [if_neg (not_not.mpr hlen)]
      · refine Or.inl ⟨i, rest, m, rfl, hm, hlen, ?_⟩
        simp only [hm]
        rw [if_pos hlen]

theorem sign_mul_cases (f : ℚ) (n : Nat) :
    f * (if n % 2 = 1 then -1 else 1) = f ∨ f * (if n % 2 = 1 then -1 else 1) = -f := by
  split
  · right
    ring
  · left
    ring

/-- A pass of `sort` that completes has rearranged `index_`, kept `delta_`,
changed `fac_` at most by sign, and recorded the spin of an index of `index_`
that was not recorded before. -/
theorem sortPass_returned (nd : Bool) (t t1 : RDM) (ds ds1 : List Spin)
    (h : sortPass nd t ds = SortResult.returned t1 ds1) :
    t1.index_.Perm t.index_ ∧ t1.delta_ = t.delta_ ∧
      (t1.fac_ = t.fac_ ∨ t1.fac_ = -t.fac_) ∧
      ∃ i, i ∈ t.index_ ∧ i.spin ∉ ds ∧ ds1 = ds ++ [i.spin] := by
  have hsplit := List.takeWhile_append_dropWhile (fun i : Index => ds.contains i.spin) t.index_
  have hhead := List.head?_dropWhile_not (fun i : Index => ds.contains i.spin) t.index_
  rcases sortPass_cases nd t ds with ⟨-, h1⟩ | ⟨i, rest, e, -, -, h1⟩ |
    ⟨i, rest, m, -, -, -, h1⟩ | ⟨i, rest, m, hdrop, hm, hlen, h1⟩
  · rw [h1] at h
    cases h
  · rw [h1] at h
    cases h
  · rw [h1] at h
    cases h
  · rw [h1] at h
    simp only [SortResult.returned.injEq] at h
    obtain ⟨ht1, hds1⟩ := h
    rw [hdrop] at hsplit hhead
    have hi : i.spin ∉ ds := by
      simpa using hhead
    have hperm := moveBlock_perm nd i rest _ m hm
    have hl1 := hperm.length_eq
    have hl2 := congrArg List.length hsplit
    simp only [List.length_append, List.length_cons, List.length_replicate] at hl1 hl2
    have hone : rest.countP (fun y => decide (y.spin = i.spin)) = 1 := by omega
    rw [hone] at hperm
    have hp2 : m.buf.Perm t.index_ := by
      refine hperm.trans ?_
      rw [List.append_assoc]
      refine (List.Perm.append_left _ (List.perm_append_singleton i rest)).trans ?_
      rw [hsplit]
    subst ht1
    refine ⟨hp2, rfl, sign_mul_cases _ _, i, ?_, hi, hds1.symm⟩
    rw [← hsplit]
    simp

theorem sortPass_ne_unfinished (nd : Bool) (t : RDM) (ds : List Spin) :
    sortPass nd t ds ≠ SortResult.unfinished := by
  rcases sortPass_cases nd t ds with ⟨-, h1⟩ | ⟨i, rest, e, -, -, h1⟩ |
    ⟨i, rest, m, -, -, -, h1⟩ | ⟨i, rest, m, -, -, -, h1⟩ <;>
  · rw [h1]
    simp

theorem length_le_of_nodup_spins (ds : List Spin) (l : List Index) (hnd : ds.Nodup)
    (hsub : ∀ s ∈ ds, ∃ y ∈ l, y.spin = s) : ds.length ≤ l.length := by
  have hs : ds ⊆ l.map (fun y => y.spin) := by
    intro s hs
    obtain ⟨y, hy, e⟩ := hsub s hs
    exact List.mem_map.mpr ⟨y, hy, e⟩
  have := (List.Nodup.subperm hnd hs).length_le
  simpa using this

/-- The loop never uses up its bound: the spins recorded in `done_spin` are
pairwise different spins of indices of `index_`. -/
theorem sortLoop_ne_unfinished (nd : Bool) : ∀ (fuel : Nat) (t : RDM) (ds : List Spin),
    ds.Nodup → (∀ s ∈ ds, ∃ y ∈ t.index_, y.spin = s) →
    t.index_.length < fuel + ds.length →
    sortLoop nd fuel t ds ≠ SortResult.unfinished
  | 0, t, ds, hnd, hsub, hlt => by
    have := length_le_of_nodup_spins ds t.index_ hnd hsub
    omega
  | fuel + 1, t, ds, hnd, hsub, hlt => by
    rw [sortLoop]
    cases hd : t.done nd with
    | error e => simp
    | ok b =>
      cases b with
      | true => simp
      | false =>
        simp only
        cases hp : sortPass nd t ds with
        | failed e t1 => simp
        | unfinished => exact absurd hp (sortPass_ne_unfinished nd t ds)
        | returned t1 ds1 =>
          simp only
          obtain ⟨hperm, -, -, i, hi, hids, hds1⟩ := sortPass_returned nd t t1 ds ds1 hp
          subst hds1
          apply sortLoop_ne_unfinished nd fuel t1 (ds ++ [i.spin])
          · rw [List.nodup_append]
            refine ⟨hnd, by simp, ?_⟩
            intro a ha hb
            simp only [List.mem_singleton] at hb
            subst hb
            exact hids ha
          · intro s hs
            rcases List.mem_append.mp hs with h1 | h1
            · obtain ⟨y, hy, e⟩ := hsub s h1
              exact ⟨y, hperm.mem_iff.mpr hy, e⟩
            · simp only [List.mem_singleton] at h1
              exact ⟨i, hperm.mem_iff.mpr hi, h1.symm⟩
          · rw [hperm.length_eq]
            simp only [List.length_append, List.length_singleton]
            omega

/-- The function `sort` of the embedding always reports what the code does: a
return or a failure. -/
theorem sortLoop_fuel_suffices (nd : Bool) (t : RDM) : sort nd t ≠ SortResult.unfinished := by
  apply sortLoop_ne_unfinished nd (t.index_.length + 1) t [] List.nodup_nil
  · intro s hs
    simp at hs
  · simp

/-! ## Adjacent transpositions as permutations of the positions -/

theorem getElem?_swap_other : ∀ (A B : List Index) (a b : Index) (j : Nat),
    j ≠ A.length → j ≠ A.length + 1 →
    (A ++ b :: a :: B)[j]? = (A ++ a :: b :: B)[j]?
  | [], B, a, b, j, h0, h1 => by
    match j with
    | 0 => simp at h0
    | 1 => simp at h1
    | j + 2 => simp
  | x :: A, B, a, b, j, h0, h1 => by
    match j with
    | 0 => simp
    | j + 1 =>
      simp only [List.cons_append, List.getElem?_cons_succ]
      apply getElem?_swap_other A B a b j
      · intro e
        apply h0
        simp [e]
      · intro e
        apply h1
        simp [e]

theorem getElem?_swap_fst : ∀ (A B : List Index) (a b : Index),
    (A ++ b :: a :: B)[A.length]? = (A ++ a :: b :: B)[A.length + 1]?
  | [], B, a, b => by simp
  | x :: A, B, a, b => by
    simpa using getElem?_swap_fst A B a b

theorem getElem?_swap_snd : ∀ (A B : List Index) (a b : Index),
    (A ++ b :: a :: B)[A.length + 1]? = (A ++ a :: b :: B)[A.length]?
  | [], B, a, b => by simp
  | x :: A, B, a, b => by
    simpa using getElem?_swap_snd A B a b

/-- A rearrangement reached by `k` adjacent transpositions is the original
sequence read through a permutation of the positions whose sign is `(-1) ^ k`. -/
theorem AdjSwaps.exists_perm {l m : List Index} {k : Nat} (h : AdjSwaps l k m) :
    ∃ σ : Equiv.Perm (Fin l.length),
      (∀ i : Fin l.length, m[i.val]? = l[(σ i).val]?) ∧ Equiv.Perm.sign σ = (-1) ^ k := by
  induction h with
  | refl => exact ⟨1, fun i => rfl, by simp⟩
  | step A a b B hprev ih =>
    obtain ⟨σ, hσ, hsign⟩ := ih
    have hlen : l.length = A.length + (B.length + 2) := by
      rw [hprev.to_perm.length_eq]
      simp
    have hp : A.length < l.length := by omega
    have hq : A.length + 1 < l.length := by omega
    have hpq : (⟨A.length, hp⟩ : Fin l.length) ≠ ⟨A.length + 1, hq⟩ := by
      intro e
      have := congrArg Fin.val e
      simp at this
    refine ⟨σ * Equiv.swap ⟨A.length, hp⟩ ⟨A.length + 1, hq⟩, ?_, ?_⟩
    · intro i
      rw [Equiv.Perm.mul_apply, ← hσ]
      by_cases h1 : i = ⟨A.length, hp⟩
      · rw [h1, Equiv.swap_apply_left]
        exact getElem?_swap_fst A B a b
      · by_cases h2 : i = ⟨A.length + 1, hq⟩
        · rw [h2, Equiv.swap_apply_right]
          exact getElem?_swap_snd A B a b
        · rw [Equiv.swap_apply_of_ne_of_ne h1 h2]
          apply getElem?_swap_other
          · intro e
            exact h1 (Fin.ext e)
          · intro e
            exact h2 (Fin.ext e)
    · rw [Equiv.Perm.sign_mul, hsign, Equiv.Perm.sign_swap hpq, pow_succ]

/-- The permutation of the positions that takes a sequence of pairwise
distinct entries to a given rearrangement is unique. -/
theorem perm_positions_unique {l m : List Index} (hnd : l.Nodup)
    (σ τ : Equiv.Perm (Fin l.length))
    (hσ : ∀ i : Fin l.length, m[i.val]? = l[(σ i).val]?)
    (hτ : ∀ i : Fin l.length, m[i.val]? = l[(τ i).val]?) : σ = τ := by
  apply Equiv.ext
  intro i
  have h := (hσ i).symm.trans (hτ i)
  rw [List.getElem?_eq_getElem (σ i).isLt, List.getElem?_eq_getElem (τ i).isLt,
    Option.some.injEq] at h
  exact Fin.ext ((List.Nodup.getElem_inj_iff hnd).mp h)

/-! ## The claims -/

/-- C1: for a term with an even number of indices, `done()` returns true
exactly when, for every `k` below `rank()`, the index at position `2k` is a
creation operator, the index at position `2k+1` is an annihilation operator,
and both carry the same spin. `done` is a `const` member function: it is a
function of the term that returns a value and no new term. -/
theorem C1_done_iff (ndebug : Bool) (t : RDM) (heven : t.index_.length % 2 = 0) :
    ∃ r b, t.rank ndebug = Except.ok r ∧ t.done ndebug = Except.ok b ∧
      (b = true ↔ ∀ k, k < r →
        ∃ c a, t.index_[2 * k]? = some c ∧ t.index_[2 * k + 1]? = some a ∧
          c.dagger = true ∧ a.dagger = false ∧ c.spin = a.spin) :=
  ⟨t.index_.length / 2, aligned t.index_, rank_eq_of_even ndebug t heven,
    done_eq_of_even ndebug t heven, aligned_iff t.index_ heven⟩

theorem C1_done_iff_witness :
    term_aligned.index_.length % 2 = 0 ∧
    ∃ r b, term_aligned.rank false = Except.ok r ∧
      term_aligned.done false = Except.ok b ∧
      (b = true ↔ ∀ k, k < r →
        ∃ c a, term_aligned.index_[2 * k]? = some c ∧
          term_aligned.index_[2 * k + 1]? = some a ∧
          c.dagger = true ∧ a.dagger = false ∧ c.spin = a.spin) :=
  ⟨by decide, C1_done_iff false term_aligned (by decide)⟩

/-- C2: on a well-formed term the loop of `sort()` returns after at most
`rank()` passes, with `done()` true for the rewritten term. The loop run with
`rank() + 1` tests of its condition already returns; `done_spin` receives one
spin per pass, its final length is at most `rank()`, and its entries are
pairwise different (every pass settles a new spin). -/
theorem C2_sort_terminates (ndebug : Bool) (t : RDM) (hwf : WellFormed t.index_) :
    ∃ r t2 ds, t.rank ndebug = Except.ok r ∧
      t.sort ndebug = SortResult.returned t2 ds ∧
      sortLoop ndebug (r + 1) t [] = SortResult.returned t2 ds ∧
      ds.length ≤ r ∧ ds.Nodup ∧ t2.done ndebug = Except.ok true := by
  obtain ⟨t2, ds2, k, hsort, hloop, hal, hsw, -, -, hnd, hlen⟩ := sort_wf ndebug t hwf
  have hev2 : t2.index_.length % 2 = 0 := by
    rw [← hsw.to_perm.length_eq]
    exact hwf.1
  refine ⟨t.index_.length / 2, t2, ds2, rank_eq_of_even ndebug t hwf.1, hsort, hloop, hlen,
    hnd, ?_⟩
  rw [done_eq_of_even ndebug t2 hev2, hal]

theorem C2_sort_terminates_witness :
    WellFormed term_crossed.index_ ∧
    ∃ r t2 ds, term_crossed.rank false = Except.ok r ∧
      term_crossed.sort false = SortResult.returned t2 ds ∧
      sortLoop false (r + 1) term_crossed [] = SortResult.returned t2 ds ∧
      ds.length ≤ r ∧ ds.Nodup ∧ t2.done false = Except.ok true :=
  ⟨by decide, C2_sort_terminates false term_crossed (by decide)⟩

/-- C3: on a well-formed term with factor `f`, `sort()` returns with the factor
`f` times the sign of the permutation that takes the original index sequence to
the sorted one. The permutation is the permutation `σ` of the positions with
`sorted[i] = original[σ i]`, which exists and is unique, and its sign is also
the parity of the inversions (`permSign`). The sorted sequence is reached by
adjacent transpositions, and for every number `k` of adjacent transpositions
that lead to it the factor is `f * (-1) ^ k`: `f` when `k` is even, `-f` when
`k` is odd. -/
theorem C3_sort_factor_sign (ndebug : Bool) (t : RDM) (hwf : WellFormed t.index_) :
    ∃ t2 ds, t.sort ndebug = SortResult.returned t2 ds ∧
      (∃ σ : Equiv.Perm (Fin t.index_.length),
        ∀ i : Fin t.index_.length, t2.index_[i.val]? = t.index_[(σ i).val]?) ∧
      (∀ σ : Equiv.Perm (Fin t.index_.length),
        (∀ i : Fin t.index_.length, t2.index_[i.val]? = t.index_[(σ i).val]?) →
          t2.fac_ = t.fac_ * (((Equiv.Perm.sign σ : ℤˣ) : ℤ) : ℚ)) ∧
      t2.fac_ = t.fac_ * permSign t.index_ t2.index_ ∧
      (∃ k, AdjSwaps t.index_ k t2.index_) ∧
      ∀ k, AdjSwaps t.index_ k t2.index_ →
        t2.fac_ = t.fac_ * (-1) ^ k ∧ (k % 2 = 0 → t2.fac_ = t.fac_) ∧
          (k % 2 = 1 → t2.fac_ = -t.fac_) := by
  obtain ⟨t2, ds2, k, hsort, -, -, hsw, hfac, -, -, -⟩ := sort_wf ndebug t hwf
  have hsign : t2.fac_ = t.fac_ * permSign t.index_ t2.index_ := by
    rw [permSign_of_adjSwaps hwf.2.1 hsw]
    exact hfac
  obtain ⟨σ, hσ, hσs⟩ := hsw.exists_perm
  refine ⟨t2, ds2, hsort, ⟨σ, hσ⟩, ?_, hsign, ⟨k, hsw⟩, ?_⟩
  · intro τ hτ
    rw [← perm_positions_unique hwf.2.1 σ τ hσ hτ, hσs, hfac]
    simp
  · intro k2 hk2
    have h2 : t2.fac_ = t.fac_ * (-1) ^ k2 := by
      rw [hsign, permSign_of_adjSwaps hwf.2.1 hk2]
    refine ⟨h2, ?_, ?_⟩
    · intro he
      rw [h2, Even.neg_one_pow (Nat.even_iff.mpr he), mul_one]
    · intro ho
      rw [h2, Odd.neg_one_pow (Nat.odd_iff.mpr ho)]
      ring

theorem C3_sort_factor_sign_witness :
    WellFormed term_crossed.index_ ∧
    ∃ t2 ds, term_crossed.sort true = SortResult.returned t2 ds ∧
      (∃ σ : Equiv.Perm (Fin term_crossed.index_.length),
        ∀ i : Fin term_crossed.index_.length,
          t2.index_[i.val]? = term_crossed.index_[(σ i).val]?) ∧
      (∀ σ : Equiv.Perm (Fin term_crossed.index_.length),
        (∀ i : Fin term_crossed.index_.length,
          t2.index_[i.val]? = term_crossed.index_[(σ i).val]?) →
          t2.fac_ = term_crossed.fac_ * (((Equiv.Perm.sign σ : ℤˣ) : ℤ) : ℚ)) ∧
      t2.fac_ = term_crossed.fac_ * permSign term_crossed.index_ t2.index_ ∧
      (∃ k, AdjSwaps term_crossed.index_ k t2.index_) ∧
      ∀ k, AdjSwaps term_crossed.index_ k t2.index_ →
        t2.fac_ = term_crossed.fac_ * (-1) ^ k ∧
          (k % 2 = 0 → t2.fac_ = term_crossed.fac_) ∧
          (k % 2 = 1 → t2.fac_ = -term_crossed.fac_) :=
  ⟨by decide, C3_sort_factor_sign true term_crossed (by decide)⟩

/-- C4: on a well-formed term `sort()` returns with an index sequence that is a
permutation of the original one: the same indices, hence the same index
numbers, with the same multiplicities, the same length and the same rank. -/
theorem C4_sort_permutation (ndebug : Bool) (t : RDM) (hwf : WellFormed t.index_) :
    ∃ t2 ds, t.sort ndebug = SortResult.returned t2 ds ∧
      t2.index_.Perm t.index_ ∧
      (∀ x, t2.index_.count x = t.index_.count x) ∧
      (t2.index_.map (fun x => x.num)).Perm (t.index_.map (fun x => x.num)) ∧
      t2.index_.length = t.index_.length ∧
      t2.rank ndebug = t.rank ndebug ∧ t.rank ndebug = Except.ok (t.index_.length / 2) := by
  obtain ⟨t2, ds2, k, hsort, -, -, hsw, -, -, -, -⟩ := sort_wf ndebug t hwf
  have hp := hsw.to_perm.symm
  have hev2 : t2.index_.length % 2 = 0 := by
    rw [hp.length_eq]
    exact hwf.1
  refine ⟨t2, ds2, hsort, hp, fun x => List.Perm.count_eq hp x, List.Perm.map _ hp,
    hp.length_eq, ?_, rank_eq_of_even ndebug t hwf.1⟩
  rw [rank_eq_of_even ndebug t2 hev2, rank_eq_of_even ndebug t hwf.1, hp.length_eq]

theorem C4_sort_permutation_witness :
    WellFormed term_interleaved.index_ ∧
    ∃ t2 ds, term_interleaved.sort false = SortResult.returned t2 ds ∧
      t2.index_.Perm term_interleaved.index_ ∧
      (∀ x, t2.index_.count x = term_interleaved.index_.count x) ∧
      (t2.index_.map (fun x => x.num)).Perm (term_interleaved.index_.map (fun x => x.num)) ∧
      t2.index_.length = term_interleaved.index_.length ∧
      t2.rank false = term_interleaved.rank false ∧
      term_interleaved.rank false = Except.ok (term_interleaved.index_.length / 2) :=
  ⟨by decide, C4_sort_permutation false term_interleaved (by decide)⟩

/-- C5: on a well-formed term `sort()` returns with the delta map unchanged and
with the factor equal to the original factor or to its negation. -/
theorem C5_sort_frame (ndebug : Bool) (t : RDM) (hwf : WellFormed t.index_) :
    ∃ t2 ds, t.sort ndebug = SortResult.returned t2 ds ∧
      t2.delta_ = t.delta_ ∧ (t2.fac_ = t.fac_ ∨ t2.fac_ = -t.fac_) := by
  obtain ⟨t2, ds2, k, hsort, -, -, -, hfac, hdel, -, -⟩ := sort_wf ndebug t hwf
  refine ⟨t2, ds2, hsort, hdel, ?_⟩
  rcases Nat.even_or_odd k with h | h
  · left
    rw [hfac, Even.neg_one_pow h, mul_one]
  · right
    rw [hfac, Odd.neg_one_pow h]
    ring

theorem C5_sort_frame_witness :
    WellFormed term_with_delta.index_ ∧
    ∃ t2 ds, term_with_delta.sort false = SortResult.returned t2 ds ∧
      t2.delta_ = term_with_delta.delta_ ∧
      (t2.fac_ = term_with_delta.fac_ ∨ t2.fac_ = -term_with_delta.fac_) :=
  ⟨by decide, C5_sort_frame false term_with_delta (by decide)⟩

/-- C6: `sort()` leaves a term of even length for which `done()` holds as it
is (index sequence, factor and delta map), without a pass of its loop; hence,
on a well-formed term, a second `sort()` returns the term that the first one
produced. -/
theorem C6_sort_idempotent (ndebug : Bool) (t u : RDM) (heven : t.index_.length % 2 = 0)
    (hdone : t.done ndebug = Except.ok true) (hwf : WellFormed u.index_) :
    t.sort ndebug = SortResult.returned t [] ∧
      ∃ u2 ds, u.sort ndebug = SortResult.returned u2 ds ∧
        u2.sort ndebug = SortResult.returned u2 [] := by
  have hal : aligned t.index_ = true := by
    rw [done_eq_of_even ndebug t heven] at hdone
    simpa using hdone
  constructor
  · rw [sort, sortLoop, done_eq_of_even ndebug t heven, hal]
  · obtain ⟨u2, ds2, k, hsort, -, hal2, hsw, -, -, -, -⟩ := sort_wf ndebug u hwf
    have hev2 : u2.index_.length % 2 = 0 := by
      rw [← hsw.to_perm.length_eq]
      exact hwf.1
    refine ⟨u2, ds2, hsort, ?_⟩
    rw [sort, sortLoop, done_eq_of_even ndebug u2 hev2, hal2]

theorem C6_sort_idempotent_witness :
    term_aligned.index_.length % 2 = 0 ∧
    term_aligned.done false = Except.ok true ∧
    WellFormed term_reversed.index_ ∧
    (term_aligned.sort false = SortResult.returned term_aligned [] ∧
      ∃ u2 ds, term_reversed.sort false = SortResult.returned u2 ds ∧
        u2.sort false = SortResult.returned u2 []) :=
  ⟨by decide, rfl, by decide,
    C6_sort_idempotent false term_aligned term_reversed (by decide) rfl (by decide)⟩

/-- C7, as stated, fails: for `[a0+, b0+, a0, b0]` with factor 1 `done()`
returns false (the index at position 1 is a creation operator), and `sort()`
returns `[a0+, a0, b0+, b0]` with the factor -1. -/
theorem C7_counterexample :
    term_interleaved.done false = Except.ok false ∧
    ∃ t2 ds, term_interleaved.sort false = SortResult.returned t2 ds ∧
      t2.index_ = [a0_cre, a0_ann, b0_cre, b0_ann] ∧
      t2.index_ ≠ [a0_cre, b0_cre, a0_ann, b0_ann] ∧ t2.fac_ = -1 ∧ t2.fac_ ≠ 1 := by
  refine ⟨rfl, ⟨(-1 : ℚ), [a0_cre, a0_ann, b0_cre, b0_ann], []⟩, [0, 1], ?_, rfl,
    by decide, rfl, by norm_num⟩
  simp [sort, sortLoop, done, cassert, doneLoop, sortPass, scanLoop, moveBlock, daggerLoop,
    nodaggerLoop, term_interleaved, term_nested, a0_cre, a0_ann, b0_cre, b0_ann, bind,
    Except.bind, pure, Except.pure]

/-- C7, amended: for a term `[a+, b+, a, b]` (`a+`, `b+` creation operators,
`a`, `b` annihilation operators, `a+` and `a` of one spin, `b+` and `b` of
another) with factor 1, `done()` returns false, and `sort()` returns the index
sequence `[a+, a, b+, b]` with the factor -1 and the delta map unchanged, after
two passes. -/
theorem C7_sort_interleaved (ndebug : Bool) (ap am bp bm : Index) (dl : List (Index × Index))
    (hap : ap.dagger = true) (ham : am.dagger = false) (hbp : bp.dagger = true)
    (hbm : bm.dagger = false) (hsa : am.spin = ap.spin) (hsb : bm.spin = bp.spin)
    (hab : ap.spin ≠ bp.spin) :
    (RDM.mk 1 [ap, bp, am, bm] dl).done ndebug = Except.ok false ∧
      (RDM.mk 1 [ap, bp, am, bm] dl).sort ndebug =
        SortResult.returned (RDM.mk (-1) [ap, am, bp, bm] dl) [ap.spin, bp.spin] := by
  have hba : ¬ bp.spin = ap.spin := fun e => hab e.symm
  constructor
  · simp [done, cassert, doneLoop, hap, hbp, bind, Except.bind, pure, Except.pure]
  · simp [sort, sortLoop, done, cassert, doneLoop, sortPass, scanLoop, moveBlock, daggerLoop,
      nodaggerLoop, hap, ham, hbp, hbm, hsa, hsb, hab, hba, bind, Except.bind, pure,
      Except.pure]

theorem C7_sort_interleaved_witness :
    a0_cre.dagger = true ∧ a0_ann.dagger = false ∧ b0_cre.dagger = true ∧
    b0_ann.dagger = false ∧ a0_ann.spin = a0_cre.spin ∧ b0_ann.spin = b0_cre.spin ∧
    a0_cre.spin ≠ b0_cre.spin ∧
    ((RDM.mk 1 [a0_cre, b0_cre, a0_ann, b0_ann] []).done false = Except.ok false ∧
      (RDM.mk 1 [a0_cre, b0_cre, a0_ann, b0_ann] []).sort false =
        SortResult.returned (RDM.mk (-1) [a0_cre, a0_ann, b0_cre, b0_ann] [])
          [a0_cre.spin, b0_cre.spin]) :=
  ⟨by decide, by decide, by decide, by decide, by decide, by decide, by decide,
    C7_sort_interleaved false a0_cre a0_ann b0_cre b0_ann [] (by decide) (by decide)
      (by decide) (by decide) (by decide) (by decide) (by decide)⟩

/-- C8, as stated, fails: for `[a0+, b0+, b0, a0]` with factor 1 `sort()`
returns a sequence for which `done()` holds, with the factor 1 and not -1. -/
theorem C8_counterexample :
    ∃ t2 ds, term_nested.sort false = SortResult.returned t2 ds ∧
      t2.done false = Except.ok true ∧ t2.fac_ = 1 ∧ t2.fac_ ≠ -term_nested.fac_ := by
  refine ⟨⟨(1 : ℚ), [b0_cre, b0_ann, a0_cre, a0_ann], []⟩, [0], ?_, rfl, rfl,
    by norm_num [term_nested]⟩
  simp [sort, sortLoop, done, cassert, doneLoop, sortPass, scanLoop, moveBlock, daggerLoop,
    nodaggerLoop, term_interleaved, term_nested, a0_cre, a0_ann, b0_cre, b0_ann, bind,
    Except.bind, pure, Except.pure]

/-- C8, amended: for a term `[a+, b+, b, a]` (`a+` and `a` of one spin, `b+`
and `b` of another) with factor `f`, `sort()` returns, after one pass, the
sequence `[b+, b, a+, a]`, for which `done()` holds, with the factor `f`
unchanged (`a+` is moved over the two operators `b+` and `b`) and the delta map
unchanged. -/
theorem C8_sort_nested (ndebug : Bool) (f : ℚ) (ap am bp bm : Index)
    (dl : List (Index × Index))
    (hap : ap.dagger = true) (ham : am.dagger = false) (hbp : bp.dagger = true)
    (hbm : bm.dagger = false) (hsa : am.spin = ap.spin) (hsb : bm.spin = bp.spin)
    (hab : ap.spin ≠ bp.spin) :
    (RDM.mk f [ap, bp, bm, am] dl).sort ndebug =
        SortResult.returned (RDM.mk f [bp, bm, ap, am] dl) [ap.spin] ∧
      (RDM.mk f [bp, bm, ap, am] dl).done ndebug = Except.ok true := by
  have hba : ¬ bp.spin = ap.spin := fun e => hab e.symm
  constructor
  · simp [sort, sortLoop, done, cassert, doneLoop, sortPass, scanLoop, moveBlock, daggerLoop,
      nodaggerLoop, hap, ham, hbp, hbm, hsa, hsb, hab, hba, bind, Except.bind, pure,
      Except.pure]
  · simp [done, cassert, doneLoop, hap, ham, hbp, hbm, hsa, hsb, bind, Except.bind, pure,
      Except.pure]

theorem C8_sort_nested_witness :
    a0_cre.dagger = true ∧ a0_ann.dagger = false ∧ b0_cre.dagger = true ∧
    b0_ann.dagger = false ∧ a0_ann.spin = a0_cre.spin ∧ b0_ann.spin = b0_cre.spin ∧
    a0_cre.spin ≠ b0_cre.spin ∧
    ((RDM.mk 3 [a0_cre, b0_cre, b0_ann, a0_ann] []).sort false =
        SortResult.returned (RDM.mk 3 [b0_cre, b0_ann, a0_cre, a0_ann] []) [a0_cre.spin] ∧
      (RDM.mk 3 [b0_cre, b0_ann, a0_cre, a0_ann] []).done false = Except.ok true) :=
  ⟨by decide, by decide, by decide, by decide, by decide, by decide, by decide,
    C8_sort_nested false 3 a0_cre a0_ann b0_cre b0_ann [] (by decide) (by decide)
      (by decide) (by decide) (by decide) (by decide) (by decide)⟩

/-- C9: `reduce_done(done)` returns false exactly when there are positions
`i < j` with an annihilation operator whose number is not in `done` at `i` and
a creation operator at `j`; it returns true for an empty index sequence and
whenever the number of every annihilation operator is in `done`. -/
theorem C9_reduce_done_iff (t : RDM) (done : List Int) :
    (t.reduce_done done = false ↔
      ∃ (i j : Nat) (x y : Index), i < j ∧ t.index_[i]? = some x ∧ t.index_[j]? = some y ∧
        x.dagger = false ∧ x.num ∉ done ∧ y.dagger = true) ∧
    (t.index_ = [] → t.reduce_done done = true) ∧
    ((∀ x ∈ t.index_, x.dagger = false → x.num ∈ done) → t.reduce_done done = true) := by
  have h := reduce_outer_iff done t.index_
  refine ⟨h, ?_, ?_⟩
  · intro he
    simp [reduce_done, he, reduce_outer]
  · intro hall
    cases hr : t.reduce_done done
    · obtain ⟨i, j, x, y, -, hx, -, hxd, hxn, -⟩ := h.mp hr
      exact absurd (hall x (List.getElem?_mem hx) hxd) hxn
    · rfl

/-- C10: `t == u` returns true exactly when the factors are equal, the delta
maps have the same number of entries, the index sequences have the same length
and the indices at every position are identical; so it returns false when the
lengths differ, when the factors differ, and when the indices at some position
are not identical. -/
theorem C10_operator_eq_iff (t u : RDM) :
    (t.operator_eq u = true ↔
      t.fac_ = u.fac_ ∧ t.delta_.length = u.delta_.length ∧
      t.index_.length = u.index_.length ∧
      ∀ k, k < t.index_.length →
        ∃ a b, t.index_[k]? = some a ∧ u.index_[k]? = some b ∧ a.identical b = true) ∧
    (t.index_.length ≠ u.index_.length → t.operator_eq u = false) ∧
    (t.fac_ ≠ u.fac_ → t.operator_eq u = false) ∧
    (∀ (k : Nat) (a b : Index), t.index_[k]? = some a → u.index_[k]? = some b →
      a.identical b = false → t.operator_eq u = false) := by
  have hiff : t.operator_eq u = true ↔
      t.fac_ = u.fac_ ∧ t.delta_.length = u.delta_.length ∧
      t.index_.length = u.index_.length ∧
      ∀ k, k < t.index_.length →
        ∃ a b, t.index_[k]? = some a ∧ u.index_[k]? = some b ∧ a.identical b = true := by
    unfold operator_eq
    simp only [factor, index, delta, Bool.true_and]
    by_cases hlen : t.index_.length = u.index_.length
    · rw [if_pos hlen]
      by_cases hf : t.fac_ = u.fac_
      · by_cases hd : t.delta_.length = u.delta_.length
        · simp only [hf, hd, hlen, decide_True, Bool.and_self, true_and]
          rw [← hlen]
          exact eqLoop_true_iff t.index_ u.index_ hlen
        · simp [hf, hd, hlen, eqLoop_false]
      · simp [hf, hlen, eqLoop_false]
    · rw [if_neg hlen]
      simp [hlen]
  refine ⟨hiff, ?_, ?_, ?_⟩
  · intro hne
    cases hr : t.operator_eq u
    · rfl
    · exact absurd (hiff.mp hr).2.2.1 hne
  · intro hne
    cases hr : t.operator_eq u
    · rfl
    · exact absurd (hiff.mp hr).1 hne
  · intro k a b ha hb hab
    cases hr : t.operator_eq u
    · rfl
    · have hk : k < t.index_.length := by
        rcases List.getElem?_eq_some.mp ha with ⟨h1, -⟩
        exact h1
      obtain ⟨a2, b2, ha2, hb2, hab2⟩ := (hiff.mp hr).2.2.2 k hk
      rw [ha] at ha2
      rw [hb] at hb2
      cases ha2
      cases hb2
      rw [hab] at hab2
      cases hab2



/-! ## Further properties of `operator==` and `reduce_done` -/

theorem operator_eq_true_iff (t u : RDM) :
    t.operator_eq u = true ↔
      t.fac_ = u.fac_ ∧ t.delta_.length = u.delta_.length ∧
      t.index_.length = u.index_.length ∧
      ∀ k, k < t.index_.length →
        ∃ a b, t.index_[k]? = some a ∧ u.index_[k]? = some b ∧ a.identical b = true := by
  unfold operator_eq
  simp only [factor, index, delta, Bool.true_and]
  by_cases hlen : t.index_.length = u.index_.length
  · rw [if_pos hlen]
    by_cases hf : t.fac_ = u.fac_
    · by_cases hd : t.delta_.length = u.delta_.length
      · simp only [hf, hd, hlen, decide_True, Bool.and_self, true_and]
        rw [← hlen]
        exact eqLoop_true_iff t.index_ u.index_ hlen
      · simp [hf, hd, hlen, eqLoop_false]
    · simp [hf, hlen, eqLoop_false]
  · rw [if_neg hlen]
    simp [hlen]

theorem identical_self (a : Index) : a.identical a = true := by
  simp [Index.identical]

theorem identical_comm (a b : Index) : a.identical b = b.identical a := by
  simp [Index.identical, eq_comm]

theorem operator_eq_self (t : RDM) : t.operator_eq t = true := by
  rw [operator_eq_true_iff]
  refine ⟨rfl, rfl, rfl, ?_⟩
  intro k hk
  exact ⟨t.index_[k], t.index_[k], List.getElem?_eq_getElem hk, List.getElem?_eq_getElem hk,
    identical_self _⟩

theorem operator_eq_imp_symm (t u : RDM) (h : t.operator_eq u = true) :
    u.operator_eq t = true := by
  rw [operator_eq_true_iff] at h ⊢
  obtain ⟨hf, hd, hl, hall⟩ := h
  refine ⟨hf.symm, hd.symm, hl.symm, ?_⟩
  intro k hk
  obtain ⟨a, b, ha, hb, hab⟩ := hall k (by omega)
  exact ⟨b, a, hb, ha, by rw [identical_comm]; exact hab⟩

theorem operator_eq_comm (t u : RDM) : t.operator_eq u = u.operator_eq t := by
  cases h1 : t.operator_eq u
  · cases h2 : u.operator_eq t
    · rfl
    · rw [operator_eq_imp_symm u t h2] at h1
      cases h1
  · exact (operator_eq_imp_symm t u h1).symm

/-- The result of `operator==` does not change when the delta map of the right
operand is replaced by one with the same number of entries. -/
theorem operator_eq_delta_irrelevant (t u : RDM) (d : List (Index × Index))
    (hd : d.length = u.delta_.length) :
    t.operator_eq ⟨u.fac_, u.index_, d⟩ = t.operator_eq u := by
  unfold operator_eq
  simp only [factor, index, delta, hd]

theorem blocked_mono (d d2 : List Int) (l : List Index) (hsub : ∀ n ∈ d, n ∈ d2)
    (h : Blocked d2 l) : Blocked d l := by
  obtain ⟨i, j, x, y, hij, hx, hy, hxd, hxn, hyd⟩ := h
  exact ⟨i, j, x, y, hij, hx, hy, hxd, fun hmem => hxn (hsub _ hmem), hyd⟩

/-! ## The claims on `operator==` and `reduce_done` -/

/-- C18: `reduce_done` is monotone in the resolved set: when every number of
`d` is in `d2` and `reduce_done(d)` is true, `reduce_done(d2)` is true. -/
theorem C18_reduce_done_mono (t : RDM) (d d2 : List Int) (hsub : ∀ n ∈ d, n ∈ d2)
    (h : t.reduce_done d = true) : t.reduce_done d2 = true := by
  cases h2 : t.reduce_done d2
  · have hb : Blocked d t.index_ :=
      blocked_mono d d2 t.index_ hsub ((reduce_outer_iff d2 t.index_).mp h2)
    have hf : t.reduce_done d = false := (reduce_outer_iff d t.index_).mpr hb
    rw [hf] at h
    cases h
  · rfl

theorem C18_reduce_done_mono_witness :
    (∀ n ∈ ([1] : List Int), n ∈ ([1, 3] : List Int)) ∧
    term_aligned.reduce_done [1] = true ∧ term_aligned.reduce_done [1, 3] = true :=
  ⟨by decide, by decide, C18_reduce_done_mono term_aligned [1] [1, 3] (by decide) (by decide)⟩

/-- C19: `operator==` depends on the delta maps only through their sizes:
replacing the delta map of `u` by any list of pairs with the same number of
entries does not change `t == u`, and two terms with the same factor and the
same indices whose delta maps have the same number of entries compare equal. -/
theorem C19_operator_eq_delta_size (t u : RDM) (d : List (Index × Index)) :
    (d.length = u.delta_.length →
      t.operator_eq ⟨u.fac_, u.index_, d⟩ = t.operator_eq u) ∧
    (d.length = t.delta_.length → t.operator_eq ⟨t.fac_, t.index_, d⟩ = true) := by
  refine ⟨operator_eq_delta_irrelevant t u d, ?_⟩
  intro hd
  rw [operator_eq_delta_irrelevant t t d hd]
  exact operator_eq_self t


/-! ## Single passes of `sort` -/

theorem daggerLoop_ndebug_ok (cs : Spin) (i : Index) : ∀ (rest : List Index) (m : Move),
    ∃ m2, daggerLoop true cs i rest m = Except.ok m2
  | [], m => ⟨m, rfl⟩
  | j :: rest, m => by
    by_cases hj : j.spin = cs
    · rw [daggerLoop, if_pos hj]
      simp only [cassert, Bool.true_or, if_true, bind, Except.bind, pure, Except.pure]
      exact daggerLoop_ndebug_ok cs i rest _
    · rw [daggerLoop, if_neg hj]
      exact daggerLoop_ndebug_ok cs i rest _

theorem nodaggerLoop_ndebug_ok (cs : Spin) (i : Index) : ∀ (rest : List Index) (m : Move),
    ∃ m2, nodaggerLoop true cs i rest m = Except.ok m2
  | [], m => ⟨m, rfl⟩
  | j :: rest, m => by
    by_cases hj : j.spin = cs
    · rw [nodaggerLoop, if_pos hj]
      simp only [cassert, Bool.true_or, if_true, bind, Except.bind, pure, Except.pure]
      exact nodaggerLoop_ndebug_ok cs i rest _
    · rw [nodaggerLoop, if_neg hj]
      exact nodaggerLoop_ndebug_ok cs i rest _

/-- Without the assertions the block that moves an index always completes. -/
theorem moveBlock_ndebug_ok (i : Index) (rest buf : List Index) :
    ∃ m, moveBlock true i rest buf = Except.ok m := by
  unfold moveBlock
  cases hd : i.dagger
  · simpa using nodaggerLoop_ndebug_ok i.spin i rest ⟨buf, 0, false⟩
  · simpa using daggerLoop_ndebug_ok i.spin i rest ⟨buf, 0, false⟩

theorem moveBlock_length (nd : Bool) (i : Index) (rest buf : List Index) (m : Move)
    (h : moveBlock nd i rest buf = Except.ok m) :
    m.buf.length = buf.length + rest.length +
      rest.countP (fun y => decide (y.spin = i.spin)) := by
  have hp := (moveBlock_perm nd i rest buf m h).length_eq
  simp only [List.length_append, List.length_replicate] at hp
  exact hp

/-- The first pass of `sort`, when `done_spin` is still empty: the first index
of `index_` is the one that is moved. -/
theorem sortPass_first (nd : Bool) (t : RDM) (i : Index) (rest : List Index)
    (hl : t.index_ = i :: rest) :
    sortPass nd t [] =
      match moveBlock nd i rest [] with
      | Except.error e => SortResult.failed e t
      | Except.ok m =>
        if t.index_.length ≠ m.buf.length then
          SortResult.failed Err.logic_error
            ⟨t.fac_ * (if m.cnt % 2 = 1 then -1 else 1), t.index_, t.delta_⟩
        else
          SortResult.returned
            ⟨t.fac_ * (if m.cnt % 2 = 1 then -1 else 1), m.buf, t.delta_⟩ [i.spin] := by
  unfold sortPass
  rw [hl]
  simp only [scanLoop, List.contains_nil, Bool.false_eq_true, if_false, List.nil_append]

theorem aligned_false_ne_nil (l : List Index) (h : aligned l = false) :
    ∃ i rest, l = i :: rest := by
  cases l with
  | nil => simp [aligned] at h
  | cons i rest => exact ⟨i, rest, rfl⟩


/-- C14, as stated, fails: in the pass on `a0 a0+` the unsettled index `a0` is
an annihilation operator with no index between it and its partner `a0+` (an
even number), and the factor changes from 1 to -1. -/
theorem C14_counterexample :
    term_swapped.index_ = [] ++ a0_ann :: (([] : List Index) ++ a0_cre :: []) ∧
    ([] : List Index).length % 2 = 0 ∧
    ∃ t1, sortPass false term_swapped [] = SortResult.returned t1 [a0_ann.spin] ∧
      t1.fac_ = -1 ∧ t1.fac_ ≠ term_swapped.fac_ := by
  refine ⟨rfl, rfl, ⟨(-1 : ℚ), [a0_cre, a0_ann], []⟩, ?_, rfl, by norm_num [term_swapped]⟩
  simp [sortPass, scanLoop, moveBlock, daggerLoop, nodaggerLoop, cassert, term_swapped,
    a0_cre, a0_ann, bind, Except.bind, pure, Except.pure]

/-- C14, amended: in a pass of `sort()` in which exactly one index `j` after
the unsettled index `i` has the spin of `i` (`A` are the indices between them),
the pass completes, and: when `i` is a creation operator the factor changes
sign if the number of indices between `i` and `j` is odd and is unchanged if it
is even; when `i` is an annihilation operator, which is moved over its partner
too, the factor changes sign if that number is even and is unchanged if it is
odd. -/
theorem C14_pass_sign (ndebug : Bool) (t : RDM) (ds : List Spin) (pre A B : List Index)
    (i j : Index) (hl : t.index_ = pre ++ i :: (A ++ j :: B))
    (hpre : ∀ y ∈ pre, y.spin ∈ ds) (hi : i.spin ∉ ds)
    (hA : ∀ y ∈ A, y.spin ≠ i.spin) (hB : ∀ y ∈ B, y.spin ≠ i.spin) (hj : j.spin = i.spin)
    (hd : ndebug = true ∨ j.dagger = !i.dagger) :
    ∃ t1, sortPass ndebug t ds = SortResult.returned t1 (ds ++ [i.spin]) ∧
      (i.dagger = true →
        (A.length % 2 = 1 → t1.fac_ = -t.fac_) ∧ (A.length % 2 = 0 → t1.fac_ = t.fac_)) ∧
      (i.dagger = false →
        (A.length % 2 = 0 → t1.fac_ = -t.fac_) ∧ (A.length % 2 = 1 → t1.fac_ = t.fac_)) := by
  cases hid : i.dagger
  · have hd2 : ndebug = true ∨ j.dagger = true := by
      rcases hd with h | h
      · exact Or.inl h
      · exact Or.inr (by simpa [hid] using h)
    refine ⟨_, sortPass_nodagger ndebug t ds pre A B i j hl hpre hi hA hB hj hid hd2, ?_, ?_⟩
    · intro h
      cases h
    · intro _
      constructor
      · intro he
        have : (A.length + 1) % 2 = 1 := by omega
        simp [this]
      · intro ho
        have : ¬ (A.length + 1) % 2 = 1 := by omega
        simp [this]
  · have hd2 : ndebug = true ∨ j.dagger = false := by
      rcases hd with h | h
      · exact Or.inl h
      · exact Or.inr (by simpa [hid] using h)
    refine ⟨_, sortPass_dagger ndebug t ds pre A B i j hl hpre hi hA hB hj hid hd2, ?_, ?_⟩
    · intro _
      constructor
      · intro ho
        simp [ho]
      · intro he
        have : ¬ A.length % 2 = 1 := by omega
        simp [this]
    · intro h
      cases h

theorem C14_pass_sign_witness :
    term_crossed.index_ = [] ++ a0_ann :: ([b0_cre, b0_ann] ++ a0_cre :: []) ∧
    (∀ y ∈ ([] : List Index), y.spin ∈ ([] : List Spin)) ∧ a0_ann.spin ∉ ([] : List Spin) ∧
    (∀ y ∈ [b0_cre, b0_ann], y.spin ≠ a0_ann.spin) ∧
    (∀ y ∈ ([] : List Index), y.spin ≠ a0_ann.spin) ∧ a0_cre.spin = a0_ann.spin ∧
    (false = true ∨ a0_cre.dagger = !a0_ann.dagger) ∧
    ∃ t1, sortPass false term_crossed [] = SortResult.returned t1 ([] ++ [a0_ann.spin]) ∧
      (a0_ann.dagger = true →
        ([b0_cre, b0_ann].length % 2 = 1 → t1.fac_ = -term_crossed.fac_) ∧
          ([b0_cre, b0_ann].length % 2 = 0 → t1.fac_ = term_crossed.fac_)) ∧
      (a0_ann.dagger = false →
        ([b0_cre, b0_ann].length % 2 = 0 → t1.fac_ = -term_crossed.fac_) ∧
          ([b0_cre, b0_ann].length % 2 = 1 → t1.fac_ = term_crossed.fac_)) :=
  ⟨rfl, by decide, by decide, by decide, by decide, by decide, by decide,
    C14_pass_sign false term_crossed [] [] [b0_cre, b0_ann] [] a0_ann a0_cre rfl (by decide)
      (by decide) (by decide) (by decide) (by decide) (by decide)⟩

/-- C16: for a term of even length for which `done()` is false, the first pass
of `sort()` moves the first index `i`; without the assertions the block that
rebuilds the sequence always completes, and whenever it completes the rebuilt
sequence has the original length exactly when one index after `i` has the spin
of `i`. In that case the pass installs the rebuilt sequence; otherwise (no such
index, or more than one) `sort()` throws `logic_error` and `index_` is the
original sequence. -/
theorem C16_first_pass_length (ndebug : Bool) (t : RDM) (heven : t.index_.length % 2 = 0)
    (hdone : t.done ndebug = Except.ok false) :
    ∃ i rest, t.index_ = i :: rest ∧
      (∃ m, moveBlock true i rest [] = Except.ok m) ∧
      ∀ m, moveBlock ndebug i rest [] = Except.ok m →
        (m.buf.length = t.index_.length ↔
          rest.countP (fun y => decide (y.spin = i.spin)) = 1) ∧
        (rest.countP (fun y => decide (y.spin = i.spin)) = 1 →
          sortPass ndebug t [] = SortResult.returned
            ⟨t.fac_ * (if m.cnt % 2 = 1 then -1 else 1), m.buf, t.delta_⟩ [i.spin]) ∧
        (rest.countP (fun y => decide (y.spin = i.spin)) ≠ 1 →
          sortPass ndebug t [] = SortResult.failed Err.logic_error
            ⟨t.fac_ * (if m.cnt % 2 = 1 then -1 else 1), t.index_, t.delta_⟩ ∧
          t.sort ndebug = SortResult.failed Err.logic_error
            ⟨t.fac_ * (if m.cnt % 2 = 1 then -1 else 1), t.index_, t.delta_⟩) := by
  have hal : aligned t.index_ = false := by
    rw [done_eq_of_even ndebug t heven] at hdone
    simpa using hdone
  obtain ⟨i, rest, hl⟩ := aligned_false_ne_nil t.index_ hal
  refine ⟨i, rest, hl, moveBlock_ndebug_ok i rest [], ?_⟩
  intro m hm
  have hlen := moveBlock_length ndebug i rest [] m hm
  have hpass := sortPass_first ndebug t i rest hl
  simp only [hm] at hpass
  have hiff : m.buf.length = t.index_.length ↔
      rest.countP (fun y => decide (y.spin = i.spin)) = 1 := by
    rw [hlen, hl]
    simp only [List.length_nil, List.length_cons]
    omega
  refine ⟨hiff, ?_, ?_⟩
  · intro h1
    rw [hpass, if_neg (not_not.mpr (hiff.mpr h1).symm)]
  · intro h1
    have hne : t.index_.length ≠ m.buf.length := fun e => h1 (hiff.mp e.symm)
    have hp2 : sortPass ndebug t [] = SortResult.failed Err.logic_error
        ⟨t.fac_ * (if m.cnt % 2 = 1 then -1 else 1), t.index_, t.delta_⟩ := by
      rw [hpass, if_pos hne]
    refine ⟨hp2, ?_⟩
    rw [sort, sortLoop, hdone]
    simp only [hp2]

theorem C16_first_pass_length_witness :
    term_interleaved.index_.length % 2 = 0 ∧
    term_interleaved.done false = Except.ok false ∧
    ∃ i rest, term_interleaved.index_ = i :: rest ∧
      (∃ m, moveBlock true i rest [] = Except.ok m) ∧
      ∀ m, moveBlock false i rest [] = Except.ok m →
        (m.buf.length = term_interleaved.index_.length ↔
          rest.countP (fun y => decide (y.spin = i.spin)) = 1) ∧
        (rest.countP (fun y => decide (y.spin = i.spin)) = 1 →
          sortPass false term_interleaved [] = SortResult.returned
            ⟨term_interleaved.fac_ * (if m.cnt % 2 = 1 then -1 else 1), m.buf,
              term_interleaved.delta_⟩ [i.spin]) ∧
        (rest.countP (fun y => decide (y.spin = i.spin)) ≠ 1 →
          sortPass false term_interleaved [] = SortResult.failed Err.logic_error
            ⟨term_interleaved.fac_ * (if m.cnt % 2 = 1 then -1 else 1),
              term_interleaved.index_, term_interleaved.delta_⟩ ∧
          term_interleaved.sort false = SortResult.failed Err.logic_error
            ⟨term_interleaved.fac_ * (if m.cnt % 2 = 1 then -1 else 1),
              term_interleaved.index_, term_interleaved.delta_⟩) :=
  ⟨by decide, rfl, C16_first_pass_length false term_interleaved (by decide) rfl⟩


/-! ## The passes of `sort` on a well-formed term -/

/-- One pass on a well-formed term that is not aligned: the first index `i`
with an unsettled spin, the only other index `j` of that spin, and the
sequence that the pass installs. -/
theorem sortPass_wf_shape (nd : Bool) (t : RDM) (ds : List Spin) (hwf : WellFormed t.index_)
    (hs : Settled ds t.index_) (hal : aligned t.index_ = false) :
    ∃ pre i A j B, t.index_ = pre ++ i :: (A ++ j :: B) ∧
      (∀ y ∈ pre, y.spin ∈ ds) ∧ i.spin ∉ ds ∧ j.spin = i.spin ∧ j.dagger = (!i.dagger) ∧
      (∀ y ∈ A, y.spin ≠ i.spin) ∧ (∀ y ∈ B, y.spin ≠ i.spin) ∧
      ∃ f, sortPass nd t ds = SortResult.returned
        ⟨f, if i.dagger then pre ++ A ++ i :: j :: B else pre ++ A ++ j :: i :: B, t.delta_⟩
        (ds ++ [i.spin]) := by
  rcases Settled.first hs with ⟨h, -⟩ | ⟨pre, i, rest, hl, hp, hpre, hi, hrest⟩
  · rw [h] at hal
    exact absurd hal (by simp)
  have hpre2 : ∀ y ∈ pre, y.spin ≠ i.spin := fun y hy e => hi (e ▸ hpre y hy)
  obtain ⟨A, j, B, hr, hj, hjd, hA, hB⟩ := WellFormed.partner hwf pre rest i hl hpre2
  have hl2 : t.index_ = pre ++ i :: (A ++ j :: B) := by rw [hl, hr]
  refine ⟨pre, i, A, j, B, hl2, hpre, hi, hj, hjd, hA, hB, ?_⟩
  cases hid : i.dagger
  · have hjd2 : j.dagger = true := by simpa [hid] using hjd
    exact ⟨_, by
      simpa using sortPass_nodagger nd t ds pre A B i j hl2 hpre hi hA hB hj hid (Or.inr hjd2)⟩
  · have hjd2 : j.dagger = false := by simpa [hid] using hjd
    exact ⟨_, by
      simpa using sortPass_dagger nd t ds pre A B i j hl2 hpre hi hA hB hj hid (Or.inr hjd2)⟩

/-- Every state of the loop of `sort()` on a well-formed term holds a
well-formed sequence made of settled pairs and unsettled single indices. -/
theorem SortReach.invariant {nd : Bool} {t0 t : RDM} {ds : List Spin}
    (hwf : WellFormed t0.index_) (h : SortReach nd t0 t ds) :
    WellFormed t.index_ ∧ Settled ds t.index_ := by
  induction h with
  | start => exact ⟨hwf, settled_initial _⟩
  | pass hprev hdone hpass ih =>
    rename_i u u1 us us1
    obtain ⟨hwf1, hs1⟩ := ih
    have hal : aligned u.index_ = false := by
      rw [done_eq_of_even nd u hwf1.1] at hdone
      simpa using hdone
    obtain ⟨t1, cs, k, hp, -, hs2, hsw, -, -, -⟩ := sortPass_wf nd u us hwf1 hs1 hal
    rw [hp] at hpass
    simp only [SortResult.returned.injEq] at hpass
    obtain ⟨e1, e2⟩ := hpass
    subst e1
    subst e2
    exact ⟨hwf1.of_perm hsw.to_perm, hs2⟩

theorem eraseIdx_append_cons : ∀ (pre R : List Index) (i : Index),
    (pre ++ i :: R).eraseIdx pre.length = pre ++ R
  | [], _, _ => rfl
  | x :: pre, R, i => by
    simp [eraseIdx_append_cons pre R i]

theorem insertIdx_append_cons : ∀ (X R : List Index) (a : Index),
    List.insertIdx X.length a (X ++ R) = X ++ a :: R
  | [], R, a => by simp [List.insertIdx_zero]
  | x :: X, R, a => by
    simp [List.insertIdx_succ_cons, insertIdx_append_cons X R a]

theorem getElem?_append_cons_length : ∀ (pre R : List Index) (i : Index),
    (pre ++ i :: R)[pre.length]? = some i
  | [], _, _ => by simp
  | x :: pre, R, i => by
    simpa using getElem?_append_cons_length pre R i


theorem getElem?_append_cons_cases : ∀ (X R : List Index) (e y : Index) (n : Nat),
    (X ++ e :: R)[n]? = some y →
      y ∈ X ∨ n = X.length ∨ ∃ k, n = X.length + 1 + k ∧ R[k]? = some y
  | [], R, e, y, n, h => by
    cases n with
    | zero => exact Or.inr (Or.inl rfl)
    | succ k =>
      refine Or.inr (Or.inr ⟨k, by simp [Nat.add_comm], ?_⟩)
      simpa using h
  | x :: X, R, e, y, n, h => by
    cases n with
    | zero =>
      left
      simp only [List.cons_append, List.getElem?_cons_zero, Option.some.injEq] at h
      simp [h]
    | succ k =>
      simp only [List.cons_append, List.getElem?_cons_succ] at h
      rcases getElem?_append_cons_cases X R e y k h with h1 | h1 | ⟨m, h1, h2⟩
      · exact Or.inl (by simp [h1])
      · exact Or.inr (Or.inl (by simp [h1]))
      · exact Or.inr (Or.inr ⟨m, by simp only [List.length_cons]; omega, h2⟩)

/-- The loop of `sort()` only passes through the states of `SortReach`. -/
theorem sortLoop_reach (nd : Bool) (t0 : RDM) : ∀ (fuel : Nat) (t t2 : RDM) (ds ds2 : List Spin),
    SortReach nd t0 t ds → sortLoop nd fuel t ds = SortResult.returned t2 ds2 →
    SortReach nd t0 t2 ds2 ∧ t2.done nd = Except.ok true
  | 0, _, _, _, _, _, h => by simp [sortLoop] at h
  | fuel + 1, t, t2, ds, ds2, hr, h => by
    rw [sortLoop] at h
    cases hd : t.done nd with
    | error err => simp [hd] at h
    | ok b =>
      cases b with
      | true =>
        simp only [hd, SortResult.returned.injEq] at h
        obtain ⟨e1, e2⟩ := h
        subst e1
        subst e2
        exact ⟨hr, hd⟩
      | false =>
        simp only [hd] at h
        cases hp : sortPass nd t ds with
        | returned t1 ds1 =>
          simp only [hp] at h
          exact sortLoop_reach nd t0 fuel t1 t2 ds1 ds2 (SortReach.pass hr hd hp) h
        | failed err t1 => simp [hp] at h
        | unfinished => simp [hp] at h

/-! ## The claims on the passes of `sort` -/

/-- C13: on a well-formed term no error branch of `sort()` is reached, with the
assertions compiled in or not. `sort()` returns, in a state of its loop; at
every test of the loop condition `index_` has even length and `done()` answers;
in every pass there is a first index `i` with an unsettled spin, exactly one
later index `j` has the spin of `i`, its dagger flag is the opposite one, and
the pass completes with a sequence of the original length. -/
theorem C13_sort_no_error (ndebug : Bool) (t0 : RDM) (hwf : WellFormed t0.index_) :
    (∃ t2 ds2, t0.sort ndebug = SortResult.returned t2 ds2 ∧ SortReach ndebug t0 t2 ds2) ∧
    ∀ t ds, SortReach ndebug t0 t ds →
      t.index_.length % 2 = 0 ∧ (∃ b, t.done ndebug = Except.ok b) ∧
      (t.done ndebug = Except.ok false →
        ∃ pre i A j B, t.index_ = pre ++ i :: (A ++ j :: B) ∧
          (∀ y ∈ pre, y.spin ∈ ds) ∧ i.spin ∉ ds ∧ j.spin = i.spin ∧
          j.dagger = (!i.dagger) ∧
          (∀ y ∈ A, y.spin ≠ i.spin) ∧ (∀ y ∈ B, y.spin ≠ i.spin) ∧
          ∃ t1, sortPass ndebug t ds = SortResult.returned t1 (ds ++ [i.spin]) ∧
            t1.index_.length = t.index_.length) := by
  constructor
  · obtain ⟨t2, ds2, k, hsort, -, -, -, -, -, -, -⟩ := sort_wf ndebug t0 hwf
    exact ⟨t2, ds2, hsort,
      (sortLoop_reach ndebug t0 _ t0 t2 [] ds2 SortReach.start hsort).1⟩
  · intro t ds hr
    obtain ⟨hwf1, hs1⟩ := hr.invariant hwf
    refine ⟨hwf1.1, ⟨aligned t.index_, done_eq_of_even ndebug t hwf1.1⟩, ?_⟩
    intro hdone
    have hal : aligned t.index_ = false := by
      rw [done_eq_of_even ndebug t hwf1.1] at hdone
      simpa using hdone
    obtain ⟨pre, i, A, j, B, hl, hpre, hi, hj, hjd, hA, hB, f, hp⟩ :=
      sortPass_wf_shape ndebug t ds hwf1 hs1 hal
    refine ⟨pre, i, A, j, B, hl, hpre, hi, hj, hjd, hA, hB, _, hp, ?_⟩
    rw [hl]
    cases hid : i.dagger <;> simp <;> omega

theorem C13_sort_no_error_witness :
    WellFormed term_reversed.index_ ∧
    ((∃ t2 ds2, term_reversed.sort false = SortResult.returned t2 ds2 ∧
        SortReach false term_reversed t2 ds2) ∧
      ∀ t ds, SortReach false term_reversed t ds →
        t.index_.length % 2 = 0 ∧ (∃ b, t.done false = Except.ok b) ∧
        (t.done false = Except.ok false →
          ∃ pre i A j B, t.index_ = pre ++ i :: (A ++ j :: B) ∧
            (∀ y ∈ pre, y.spin ∈ ds) ∧ i.spin ∉ ds ∧ j.spin = i.spin ∧
            j.dagger = (!i.dagger) ∧
            (∀ y ∈ A, y.spin ≠ i.spin) ∧ (∀ y ∈ B, y.spin ≠ i.spin) ∧
            ∃ t1, sortPass false t ds = SortResult.returned t1 (ds ++ [i.spin]) ∧
              t1.index_.length = t.index_.length)) :=
  ⟨by decide, C13_sort_no_error false term_reversed (by decide)⟩

/-- C15: in a pass of `sort()` on a well-formed term (`t` is the object at a
test of the loop condition with `done()` false), let `p` be the first position
whose spin is not settled and `q > p` the only other position with that spin.
When the index `i` at `p` is a creation operator the new sequence is the old
one with `i` removed from `p` and inserted right before the index `j` from `q`;
when it is an annihilation operator, `i` is inserted right after `j`. All other
indices keep their order: with `pre`, `A`, `B` the parts of the old sequence
before `i`, between `i` and `j`, and after `j`, the new sequence is
`pre A i j B`, respectively `pre A j i B`. -/
theorem C15_pass_moves_index (ndebug : Bool) (t0 t : RDM) (ds : List Spin)
    (hwf : WellFormed t0.index_) (hreach : SortReach ndebug t0 t ds)
    (hdone : t.done ndebug = Except.ok false) :
    ∃ p q i j t1, p < q ∧ t.index_[p]? = some i ∧ t.index_[q]? = some j ∧
      (∀ n y, n < p → t.index_[n]? = some y → y.spin ∈ ds) ∧ i.spin ∉ ds ∧
      j.spin = i.spin ∧
      (∀ n y, t.index_[n]? = some y → y.spin = i.spin → n = p ∨ n = q) ∧
      sortPass ndebug t ds = SortResult.returned t1 (ds ++ [i.spin]) ∧
      (i.dagger = true → t1.index_ = List.insertIdx (q - 1) i (t.index_.eraseIdx p)) ∧
      (i.dagger = false → t1.index_ = List.insertIdx q i (t.index_.eraseIdx p)) ∧
      ∃ pre A B, t.index_ = pre ++ i :: (A ++ j :: B) ∧
        p = pre.length ∧ q = pre.length + 1 + A.length ∧
        (i.dagger = true → t1.index_ = pre ++ A ++ i :: j :: B) ∧
        (i.dagger = false → t1.index_ = pre ++ A ++ j :: i :: B) := by
  obtain ⟨hwf1, hs1⟩ := hreach.invariant hwf
  have hal : aligned t.index_ = false := by
    rw [done_eq_of_even ndebug t hwf1.1] at hdone
    simpa using hdone
  obtain ⟨pre, i, A, j, B, hl, hpre, hi, hj, hjd, hA, hB, f, hp⟩ :=
    sortPass_wf_shape ndebug t ds hwf1 hs1 hal
  have hq : t.index_[pre.length + 1 + A.length]? = some j := by
    have e : t.index_ = (pre ++ i :: A) ++ j :: B := by simp [hl]
    have e2 : pre.length + 1 + A.length = (pre ++ i :: A).length := by
      simp only [List.length_append, List.length_cons]
      omega
    rw [e, e2]
    exact getElem?_append_cons_length _ _ _
  have her : t.index_.eraseIdx pre.length = pre ++ (A ++ j :: B) := by
    rw [hl]
    exact eraseIdx_append_cons pre _ i
  refine ⟨pre.length, pre.length + 1 + A.length, i, j, _, by omega, ?_, hq, ?_, hi, hj, ?_, hp,
    ?_, ?_, pre, A, B, hl, rfl, rfl, ?_, ?_⟩
  · rw [hl]
    exact getElem?_append_cons_length _ _ _
  · intro n y hn hy
    rw [hl] at hy
    rcases getElem?_append_cons_cases pre _ i y n hy with h1 | h1 | ⟨k, h1, -⟩
    · exact hpre y h1
    · omega
    · omega
  · intro n y hy hys
    rw [hl] at hy
    rcases getElem?_append_cons_cases pre _ i y n hy with h1 | h1 | ⟨k, h1, h2⟩
    · exact absurd (hys ▸ hpre y h1) hi
    · exact Or.inl h1
    · rcases getElem?_append_cons_cases A B j y k h2 with h3 | h3 | ⟨m, -, h4⟩
      · exact absurd hys (hA y h3)
      · right
        omega
      · exact absurd hys (hB y (List.getElem?_mem h4))
  · intro hid
    rw [her]
    have e : pre.length + 1 + A.length - 1 = (pre ++ A).length := by
      simp only [List.length_append]
      omega
    rw [e, ← List.append_assoc, insertIdx_append_cons]
    simp [hid]
  · intro hid
    rw [her]
    have e : pre.length + 1 + A.length = (pre ++ A ++ [j]).length := by
      simp only [List.length_append, List.length_singleton]
      omega
    have e2 : pre ++ (A ++ j :: B) = (pre ++ A ++ [j]) ++ B := by simp
    rw [e, e2, insertIdx_append_cons]
    simp [hid]
  · intro hid
    simp [hid]
  · intro hid
    simp [hid]

theorem C15_pass_moves_index_witness :
    WellFormed term_crossed.index_ ∧ SortReach false term_crossed term_crossed [] ∧
    term_crossed.done false = Except.ok false ∧
    ∃ p q i j t1, p < q ∧ term_crossed.index_[p]? = some i ∧
      term_crossed.index_[q]? = some j ∧
      (∀ n y, n < p → term_crossed.index_[n]? = some y → y.spin ∈ ([] : List Spin)) ∧
      i.spin ∉ ([] : List Spin) ∧ j.spin = i.spin ∧
      (∀ n y, term_crossed.index_[n]? = some y → y.spin = i.spin → n = p ∨ n = q) ∧
      sortPass false term_crossed [] = SortResult.returned t1 ([] ++ [i.spin]) ∧
      (i.dagger = true →
        t1.index_ = List.insertIdx (q - 1) i (term_crossed.index_.eraseIdx p)) ∧
      (i.dagger = false → t1.index_ = List.insertIdx q i (term_crossed.index_.eraseIdx p)) ∧
      ∃ pre A B, term_crossed.index_ = pre ++ i :: (A ++ j :: B) ∧
        p = pre.length ∧ q = pre.length + 1 + A.length ∧
        (i.dagger = true → t1.index_ = pre ++ A ++ i :: j :: B) ∧
        (i.dagger = false → t1.index_ = pre ++ A ++ j :: i :: B) :=
  ⟨by decide, SortReach.start, rfl,
    C15_pass_moves_index false term_crossed term_crossed [] (by decide) SortReach.start rfl⟩


/-! ## The closed form of the sorted sequence -/

theorem closedFrom_append (o : List Index) : ∀ (X Y seen : List Index),
    closedFrom o seen (X ++ Y) = closedFrom o seen X ++ closedFrom o (seen ++ X) Y
  | [], Y, seen => by simp [closedFrom]
  | x :: X, Y, seen => by
    have ih := closedFrom_append o X Y (seen ++ [x])
    rw [List.append_assoc, List.singleton_append] at ih
    rw [List.cons_append, closedFrom, closedFrom, ih, List.append_assoc]

theorem isLater_append (seen X : List Index) (y : Index) :
    isLater (seen ++ X) y = (isLater seen y || isLater X y) := by
  simp [isLater]

theorem isLater_of_ne (X : List Index) (y : Index) (h : ∀ x ∈ X, x.spin ≠ y.spin) :
    isLater X y = false := by
  simp only [isLater, List.any_eq_false, decide_eq_true_eq]
  exact h

/-- The closed form along `X` depends on `seen` only through the spins that
occur in `seen`. -/
theorem closedFrom_congr_seen (o : List Index) : ∀ (X seen seen2 : List Index),
    (∀ y ∈ X, isLater seen y = isLater seen2 y) →
    closedFrom o seen X = closedFrom o seen2 X
  | [], _, _, _ => rfl
  | x :: X, seen, seen2, h => by
    have hx : isLater seen x = isLater seen2 x := h x (by simp)
    have ih := closedFrom_congr_seen o X (seen ++ [x]) (seen2 ++ [x]) (by
      intro y hy
      rw [isLater_append, isLater_append, h y (by simp [hy])])
    simp only [closedFrom, hx, ih]

/-- The closed form along `X` depends on `orig` only through the pairs of the
spins of `X`. -/
theorem closedFrom_congr_orig (o o2 : List Index) : ∀ (X seen : List Index),
    (∀ y ∈ X, pairOf o y.spin = pairOf o2 y.spin) →
    closedFrom o seen X = closedFrom o2 seen X
  | [], _, _ => rfl
  | x :: X, seen, h => by
    have ih := closedFrom_congr_orig o o2 X (seen ++ [x]) (fun y hy => h y (by simp [hy]))
    simp only [closedFrom, h x (by simp), ih]

theorem filter_eq_singleton (p : Index → Bool) (l : List Index) (y : Index)
    (hc : l.countP p = 1) (hy : y ∈ l) (hp : p y = true) : l.filter p = [y] := by
  rw [List.countP_eq_length_filter] at hc
  obtain ⟨a, ha⟩ := List.length_eq_one.mp hc
  have hmem : y ∈ l.filter p := List.mem_filter.mpr ⟨hy, hp⟩
  rw [ha] at hmem ⊢
  simp only [List.mem_singleton] at hmem
  rw [hmem]

/-- In a well-formed sequence the pair of the spin of a creation operator `c`
and of an annihilation operator `a` of the same spin is `c a`. -/
theorem WellFormed.pairOf_eq {l : List Index} (h : WellFormed l) (c a : Index)
    (hc : c ∈ l) (ha : a ∈ l) (hcd : c.dagger = true) (had : a.dagger = false)
    (hs : c.spin = a.spin) : pairOf l c.spin = [c, a] := by
  obtain ⟨hd, hn⟩ := h.2.2 c hc
  have h1 := filter_eq_singleton _ l c hd hc (by simp [hcd])
  have h2 := filter_eq_singleton _ l a hn ha (by simp [had, hs])
  rw [pairOf, h1, h2]
  rfl

theorem WellFormed.pairOf_perm {l m : List Index} (h : WellFormed l) (hp : l.Perm m)
    (y : Index) (hy : y ∈ l) : pairOf m y.spin = pairOf l y.spin := by
  obtain ⟨hd, hn⟩ := h.2.2 y hy
  rw [List.countP_eq_length_filter] at hd hn
  obtain ⟨c, hc⟩ := List.length_eq_one.mp hd
  obtain ⟨a, ha⟩ := List.length_eq_one.mp hn
  have h1 := (List.Perm.filter (fun x => decide (x.spin = y.spin) && x.dagger) hp).symm
  have h2 := (List.Perm.filter (fun x => decide (x.spin = y.spin) && !x.dagger) hp).symm
  rw [hc] at h1
  rw [ha] at h2
  rw [pairOf, pairOf, hc, ha, List.perm_singleton.mp h1, List.perm_singleton.mp h2]


theorem closedFrom_cons (o seen : List Index) (y : Index) (rest : List Index) :
    closedFrom o seen (y :: rest) =
      (if isLater seen y then pairOf o y.spin else []) ++ closedFrom o (seen ++ [y]) rest :=
  rfl

/-- Moving the first index `i` of a spin next to the only other index `j` of
that spin does not change the closed form (`c a` is `i j` or `j i`). -/
theorem closedFrom_move (o pre A B : List Index) (i j c a : Index)
    (hpre : ∀ y ∈ pre, y.spin ≠ i.spin) (hA : ∀ y ∈ A, y.spin ≠ i.spin)
    (hB : ∀ y ∈ B, y.spin ≠ i.spin) (hj : j.spin = i.spin) (hc : c.spin = i.spin)
    (ha : a.spin = i.spin) :
    closedFrom o [] (pre ++ i :: (A ++ j :: B)) = closedFrom o [] (pre ++ A ++ c :: a :: B) := by
  have e1 : isLater pre i = false := isLater_of_ne pre i hpre
  have e2 : isLater (pre ++ [i] ++ A) j = true := by
    simp [isLater, hj]
  have e3 : isLater (pre ++ A) c = false := by
    apply isLater_of_ne
    intro x hx
    rw [hc]
    rcases List.mem_append.mp hx with h | h
    · exact hpre x h
    · exact hA x h
  have e4 : isLater (pre ++ A ++ [c]) a = true := by
    simp [isLater, hc, ha]
  have e5 : closedFrom o (pre ++ [i]) A = closedFrom o pre A := by
    apply closedFrom_congr_seen
    intro y hy
    rw [isLater_append]
    have : isLater [i] y = false := by
      simp only [isLater, List.any_cons, List.any_nil, Bool.or_false, decide_eq_false_iff_not]
      exact fun e => hA y hy e.symm
    rw [this, Bool.or_false]
  have e6 : closedFrom o (pre ++ [i] ++ A ++ [j]) B = closedFrom o (pre ++ A ++ [c] ++ [a]) B := by
    apply closedFrom_congr_seen
    intro y hy
    have hy2 : ¬ i.spin = y.spin := fun e => hB y hy e.symm
    simp [isLater, hj, hc, ha, hy2]
  have e7 : pairOf o j.spin = pairOf o a.spin := by rw [hj, ha]
  have L : closedFrom o [] (pre ++ i :: (A ++ j :: B)) =
      closedFrom o [] pre ++ (closedFrom o pre A ++ (pairOf o a.spin ++
        closedFrom o (pre ++ A ++ [c] ++ [a]) B)) := by
    rw [closedFrom_append, List.nil_append, closedFrom_cons, e1, closedFrom_append,
      closedFrom_cons, e2, e5, e6, e7]
    simp
  have R : closedFrom o [] (pre ++ A ++ c :: a :: B) =
      closedFrom o [] pre ++ (closedFrom o pre A ++ (pairOf o a.spin ++
        closedFrom o (pre ++ A ++ [c] ++ [a]) B)) := by
    rw [closedFrom_append, closedFrom_append, List.nil_append, List.nil_append, closedFrom_cons,
      e3, closedFrom_cons, e4]
    simp
  rw [L, R]

/-- The closed form of an aligned sequence of pairs of pairwise different
spins, none of which occurs in `seen`, is the sequence itself. -/
theorem closedFrom_aligned (o : List Index) : ∀ (R seen : List Index),
    R.length % 2 = 0 → aligned R = true →
    (∀ y ∈ R, isLater seen y = false) →
    (∀ y ∈ R, R.countP (fun x => decide (x.spin = y.spin) && x.dagger) = 1 ∧
      R.countP (fun x => decide (x.spin = y.spin) && !x.dagger) = 1) →
    (∀ c ∈ R, ∀ a ∈ R, c.dagger = true → a.dagger = false → c.spin = a.spin →
      pairOf o c.spin = [c, a]) →
    closedFrom o seen R = R
  | [], _, _, _, _, _, _ => rfl
  | [c], _, h, _, _, _, _ => by simp at h
  | c :: a :: R, seen, hlen, hal, hseen, hcnt, hpair => by
    simp only [aligned, Bool.and_eq_true, Bool.not_eq_true', decide_eq_true_eq] at hal
    obtain ⟨⟨⟨hcd, had⟩, hs⟩, halR⟩ := hal
    obtain ⟨hc1, hc2⟩ := hcnt c (by simp)
    have hR0 : R.countP (fun x => decide (x.spin = c.spin) && x.dagger) = 0 := by
      simp only [List.countP_cons, hcd, had, decide_True, Bool.and_true, Bool.and_false,
        Bool.false_eq_true, if_true, if_false] at hc1
      omega
    have hR1 : R.countP (fun x => decide (x.spin = c.spin) && !x.dagger) = 0 := by
      have has : a.spin = c.spin := hs.symm
      simp only [List.countP_cons, hcd, had, has, decide_True, Bool.not_true, Bool.not_false,
        Bool.and_true, Bool.and_false, Bool.false_eq_true, if_true, if_false] at hc2
      omega
    have hne : ∀ y ∈ R, y.spin ≠ c.spin := by
      intro y hy e
      have h1 := (List.countP_eq_zero.mp hR0) y hy
      have h2 := (List.countP_eq_zero.mp hR1) y hy
      cases hyd : y.dagger <;> simp [e, hyd] at h1 h2
    have hlenR : R.length % 2 = 0 := by
      simp only [List.length_cons] at hlen
      omega
    have ih := closedFrom_aligned o R (seen ++ [c] ++ [a]) hlenR halR (by
      intro y hy
      have h0 := hseen y (by simp [hy])
      have h1 : ¬ c.spin = y.spin := fun e => hne y hy e.symm
      have h2 : ¬ a.spin = y.spin := fun e => hne y hy (hs ▸ e.symm)
      simp only [isLater, List.any_append, List.any_cons, List.any_nil, Bool.or_false,
        Bool.or_eq_false_iff, decide_eq_false_iff_not] at h0 ⊢
      exact ⟨⟨h0, h1⟩, h2⟩) (by
      intro y hy
      obtain ⟨k1, k2⟩ := hcnt y (by simp [hy])
      have h1 : ¬ c.spin = y.spin := fun e => hne y hy e.symm
      have h2 : ¬ a.spin = y.spin := fun e => hne y hy (hs ▸ e.symm)
      simp only [List.countP_cons, h1, h2, decide_False, Bool.false_and, Bool.false_eq_true,
        if_false, Nat.add_zero] at k1 k2
      exact ⟨k1, k2⟩) (by
      intro c2 hc2 a2 ha2
      exact hpair c2 (by simp [hc2]) a2 (by simp [ha2]))
    have hl1 : isLater seen c = false := hseen c (by simp)
    have hl2 : isLater (seen ++ [c]) a = true := by
      simp [isLater, hs]
    have hp : pairOf o a.spin = [c, a] := by
      rw [← hs]
      exact hpair c (by simp) a (by simp) hcd had hs
    rw [closedFrom_cons, hl1, closedFrom_cons, hl2, ih, hp]
    simp

/-- The closed form of a well-formed aligned sequence is the sequence. -/
theorem closedForm_of_aligned (l : List Index) (hwf : WellFormed l) (hal : aligned l = true) :
    closedForm l = l := by
  apply closedFrom_aligned l l [] hwf.1 hal
  · intro y _
    rfl
  · exact hwf.2.2
  · intro c hc a ha hcd had hs
    exact hwf.pairOf_eq c a hc ha hcd had hs

/-- The closed form is the same at every state of the loop of `sort()` on a
well-formed term. -/
theorem SortReach.closedForm_eq {nd : Bool} {t0 t : RDM} {ds : List Spin}
    (hwf : WellFormed t0.index_) (h : SortReach nd t0 t ds) :
    closedForm t.index_ = closedForm t0.index_ := by
  induction h with
  | start => rfl
  | pass hprev hdone hpass ih =>
    rename_i u u1 us us1
    obtain ⟨hwf1, hs1⟩ := hprev.invariant hwf
    have hal : aligned u.index_ = false := by
      rw [done_eq_of_even nd u hwf1.1] at hdone
      simpa using hdone
    obtain ⟨pre, i, A, j, B, hl, hpre, hi, hj, hjd, hA, hB, f, hp⟩ :=
      sortPass_wf_shape nd u us hwf1 hs1 hal
    rw [hp] at hpass
    simp only [SortResult.returned.injEq] at hpass
    obtain ⟨e1, -⟩ := hpass
    have hpre2 : ∀ y ∈ pre, y.spin ≠ i.spin := fun y hy e => hi (e ▸ hpre y hy)
    have hidx : u1.index_ = if i.dagger then pre ++ A ++ i :: j :: B
        else pre ++ A ++ j :: i :: B := by
      rw [← e1]
    have hperm : u.index_.Perm u1.index_ := by
      rw [hidx, hl]
      cases i.dagger
      · simp only [Bool.false_eq_true, if_false]
        rw [List.append_assoc]
        refine List.Perm.append_left pre ?_
        have h1 : (i :: (A ++ j :: B)).Perm (A ++ i :: j :: B) := List.perm_middle.symm
        exact h1.trans (List.Perm.append_left A (List.Perm.swap j i B))
      · simp only [if_true]
        rw [List.append_assoc]
        exact List.Perm.append_left pre List.perm_middle.symm
    rw [← ih]
    have hmove : closedFrom u.index_ [] u.index_ = closedFrom u.index_ [] u1.index_ := by
      rw [hidx]
      nth_rewrite 2 [hl]
      cases i.dagger
      · simp only [Bool.false_eq_true, if_false]
        exact closedFrom_move u.index_ pre A B i j j i hpre2 hA hB hj hj rfl
      · simp only [if_true]
        exact closedFrom_move u.index_ pre A B i j i j hpre2 hA hB hj rfl hj
    have horig : closedFrom u.index_ [] u1.index_ = closedFrom u1.index_ [] u1.index_ := by
      apply closedFrom_congr_orig
      intro y hy
      exact (hwf1.pairOf_perm hperm y (hperm.mem_iff.mpr hy)).symm
    rw [closedForm, closedForm, ← horig, ← hmove]


theorem closedFrom_eq_flatMap (o : List Index) : ∀ (X seen : List Index),
    closedFrom o seen X = (laterSpinsFrom seen X).flatMap (pairOf o)
  | [], _ => rfl
  | x :: X, seen => by
    rw [closedFrom_cons, laterSpinsFrom, List.flatMap_append, closedFrom_eq_flatMap o X]
    cases isLater seen x <;> simp

/-- The closed form is the sequence of the pairs of the spins, in the order in
which the later indices of the spins occur. -/
theorem closedForm_eq_flatMap (l : List Index) :
    closedForm l = (laterSpins l).flatMap (pairOf l) :=
  closedFrom_eq_flatMap l l []

theorem AdjSwaps.symm {l m : List Index} {k : Nat} (h : AdjSwaps l k m) : AdjSwaps m k l := by
  induction h with
  | refl => exact AdjSwaps.refl _
  | step A a b B _ ih =>
    have h1 : AdjSwaps (A ++ b :: a :: B) 1 (A ++ a :: b :: B) :=
      AdjSwaps.step A b a B (AdjSwaps.refl _)
    have h2 := AdjSwaps.trans h1 ih
    rw [Nat.add_comm] at h2
    exact h2

/-- The sequence that `sort()` returns on a well-formed term is the closed
form of the input. -/
theorem sort_wf_closedForm (nd : Bool) (t : RDM) (hwf : WellFormed t.index_) :
    ∃ t2 ds2 k, sort nd t = SortResult.returned t2 ds2 ∧
      t2.index_ = closedForm t.index_ ∧ AdjSwaps t.index_ k t2.index_ ∧
      t2.fac_ = t.fac_ * (-1) ^ k ∧ t2.delta_ = t.delta_ := by
  obtain ⟨t2, ds2, k, hsort, -, hal, hsw, hfac, hdel, -, -⟩ := sort_wf nd t hwf
  have hr := (sortLoop_reach nd t _ t t2 [] ds2 SortReach.start hsort).1
  have hcf := hr.closedForm_eq hwf
  have hwf2 : WellFormed t2.index_ := hwf.of_perm hsw.to_perm
  rw [closedForm_of_aligned t2.index_ hwf2 hal] at hcf
  exact ⟨t2, ds2, k, hsort, hcf, hsw, hfac, hdel⟩

theorem mem_laterSpinsFrom (s : Spin) : ∀ (X seen : List Index),
    s ∈ laterSpinsFrom seen X → ∃ y ∈ X, y.spin = s
  | [], seen, h => by simp [laterSpinsFrom] at h
  | x :: X, seen, h => by
    rw [laterSpinsFrom, List.mem_append] at h
    rcases h with h | h
    · refine ⟨x, by simp, ?_⟩
      cases hl : isLater seen x
      · simp [hl] at h
      · simp only [hl, if_true, List.mem_singleton] at h
        exact h.symm
    · obtain ⟨y, hy, e⟩ := mem_laterSpinsFrom s X _ h
      exact ⟨y, by simp [hy], e⟩

/-! ## The claims on the sorted sequence -/

/-- C17: on a well-formed term the sequence produced by `sort()` is the closed
form of the input: the input read from left to right, with the earlier index
of every spin left out and the later one replaced by the pair (creation index,
annihilation index) of that spin; it is the sequence of these pairs in the
order in which the later indices of the spins occur in the input. -/
theorem C17_sort_closed_form (ndebug : Bool) (t : RDM) (hwf : WellFormed t.index_) :
    ∃ t2 ds, t.sort ndebug = SortResult.returned t2 ds ∧
      t2.index_ = closedForm t.index_ ∧
      t2.index_ = (laterSpins t.index_).flatMap (pairOf t.index_) ∧
      ∀ s ∈ laterSpins t.index_, ∃ c a, pairOf t.index_ s = [c, a] ∧
        c ∈ t.index_ ∧ a ∈ t.index_ ∧ c.dagger = true ∧ a.dagger = false ∧
        c.spin = s ∧ a.spin = s := by
  obtain ⟨t2, ds2, k, hsort, hcf, -, -, -⟩ := sort_wf_closedForm ndebug t hwf
  refine ⟨t2, ds2, hsort, hcf, by rw [hcf, closedForm_eq_flatMap], ?_⟩
  intro s hs
  obtain ⟨y, hy, hys⟩ := mem_laterSpinsFrom s t.index_ [] hs
  obtain ⟨hd, hn⟩ := hwf.2.2 y hy
  rw [List.countP_eq_length_filter] at hd hn
  obtain ⟨c, hc⟩ := List.length_eq_one.mp hd
  obtain ⟨a, ha⟩ := List.length_eq_one.mp hn
  have hcm : c ∈ t.index_.filter (fun x => decide (x.spin = y.spin) && x.dagger) := by
    rw [hc]
    simp
  have ham : a ∈ t.index_.filter (fun x => decide (x.spin = y.spin) && !x.dagger) := by
    rw [ha]
    simp
  rw [List.mem_filter] at hcm ham
  simp only [Bool.and_eq_true, decide_eq_true_eq, Bool.not_eq_true'] at hcm ham
  refine ⟨c, a, ?_, hcm.1, ham.1, hcm.2.2, ham.2.2, by rw [← hys]; exact hcm.2.1,
    by rw [← hys]; exact ham.2.1⟩
  rw [pairOf, ← hys, hc, ha]
  rfl

theorem C17_sort_closed_form_witness :
    WellFormed term_crossed.index_ ∧
    ∃ t2 ds, term_crossed.sort false = SortResult.returned t2 ds ∧
      t2.index_ = closedForm term_crossed.index_ ∧
      t2.index_ = (laterSpins term_crossed.index_).flatMap (pairOf term_crossed.index_) ∧
      ∀ s ∈ laterSpins term_crossed.index_, ∃ c a, pairOf term_crossed.index_ s = [c, a] ∧
        c ∈ term_crossed.index_ ∧ a ∈ term_crossed.index_ ∧ c.dagger = true ∧
        a.dagger = false ∧ c.spin = s ∧ a.spin = s :=
  ⟨by decide, C17_sort_closed_form false term_crossed (by decide)⟩


theorem flatMap_congr_mem (f g : Spin → List Index) : ∀ (L : List Spin),
    (∀ s ∈ L, f s = g s) → L.flatMap f = L.flatMap g
  | [], _ => rfl
  | s :: L, h => by
    rw [List.flatMap_cons, List.flatMap_cons, h s (by simp),
      flatMap_congr_mem f g L (fun x hx => h x (by simp [hx]))]

/-- Two well-formed sequences with the same indices and the same order of the
later indices of the spins have the same closed form. -/
theorem closedForm_eq_of_perm (l m : List Index) (hwf : WellFormed l) (hp : m.Perm l)
    (ho : laterSpins m = laterSpins l) : closedForm m = closedForm l := by
  rw [closedForm_eq_flatMap, closedForm_eq_flatMap, ho]
  apply flatMap_congr_mem
  intro s hs
  obtain ⟨y, hy, e⟩ := mem_laterSpinsFrom s l [] hs
  rw [← e]
  exact hwf.pairOf_perm hp.symm y hy

/-- C12, as stated, fails: `a0+ a0 b0+ b0` and `b0+ b0 a0+ a0`, both with
factor 1 (the sign of the reordering is 1) and an empty delta map, are
well-formed and hold the same indices; `sort()` returns each of them as it is,
and they do not compare equal. -/
theorem C12_counterexample :
    WellFormed term_aligned.index_ ∧ WellFormed term_pairs_swapped.index_ ∧
    term_pairs_swapped.index_.Perm term_aligned.index_ ∧
    term_pairs_swapped.delta_ = term_aligned.delta_ ∧
    term_pairs_swapped.fac_ =
      term_aligned.fac_ * permSign term_aligned.index_ term_pairs_swapped.index_ ∧
    term_aligned.sort false = SortResult.returned term_aligned [] ∧
    term_pairs_swapped.sort false = SortResult.returned term_pairs_swapped [] ∧
    term_aligned.operator_eq term_pairs_swapped = false := by
  refine ⟨by decide, by decide, by decide, rfl, ?_, rfl, rfl, by decide⟩
  rw [show permSign term_aligned.index_ term_pairs_swapped.index_ = 1 from by decide]
  norm_num [term_aligned, term_pairs_swapped]

/-- C12, amended: for two terms that hold the same indices, the first of them
well-formed, with equal delta maps, with factors that differ by the sign of the
reordering between them, and in which the later indices of the spins occur in
the same order of spins, `sort()` returns on both, with the same index sequence
and the same factor, and the two results compare equal under `operator==`. -/
theorem C12_sorted_equal (ndebug : Bool) (t u : RDM) (hwf : WellFormed t.index_)
    (hperm : u.index_.Perm t.index_) (hdel : u.delta_ = t.delta_)
    (hfac : u.fac_ = t.fac_ * permSign t.index_ u.index_)
    (horder : laterSpins u.index_ = laterSpins t.index_) :
    ∃ t2 u2 ds ds2, t.sort ndebug = SortResult.returned t2 ds ∧
      u.sort ndebug = SortResult.returned u2 ds2 ∧
      t2.index_ = u2.index_ ∧ t2.fac_ = u2.fac_ ∧ t2.operator_eq u2 = true := by
  have hwfu : WellFormed u.index_ := hwf.of_perm hperm.symm
  obtain ⟨t2, ds, k, hst, hct, hswt, hft, hdt⟩ := sort_wf_closedForm ndebug t hwf
  obtain ⟨u2, ds2, k2, hsu, hcu, hswu, hfu, hdu⟩ := sort_wf_closedForm ndebug u hwfu
  have hidx : t2.index_ = u2.index_ := by
    rw [hct, hcu, closedForm_eq_of_perm t.index_ u.index_ hwf hperm horder]
  have hsw : AdjSwaps t.index_ (k + k2) u.index_ := by
    rw [hidx] at hswt
    exact hswt.trans hswu.symm
  have hsign := permSign_of_adjSwaps hwf.2.1 hsw
  have hfeq : t2.fac_ = u2.fac_ := by
    rw [hft, hfu, hfac, hsign, pow_add, mul_assoc, mul_assoc, ← pow_add, ← two_mul,
      pow_mul]
    norm_num
  refine ⟨t2, u2, ds, ds2, hst, hsu, hidx, hfeq, ?_⟩
  have heq : u2 = t2 := by
    cases t2
    cases u2
    simp only at hidx hfeq hdt hdu
    simp only [RDM.mk.injEq]
    exact ⟨hfeq.symm, hidx.symm, by rw [hdu, hdel, hdt]⟩
  rw [heq]
  exact operator_eq_self t2

theorem C12_sorted_equal_witness :
    WellFormed term_interleaved.index_ ∧
    term_outer.index_.Perm term_interleaved.index_ ∧
    term_outer.delta_ = term_interleaved.delta_ ∧
    term_outer.fac_ =
      term_interleaved.fac_ * permSign term_interleaved.index_ term_outer.index_ ∧
    laterSpins term_outer.index_ = laterSpins term_interleaved.index_ ∧
    ∃ t2 u2 ds ds2, term_interleaved.sort false = SortResult.returned t2 ds ∧
      term_outer.sort false = SortResult.returned u2 ds2 ∧
      t2.index_ = u2.index_ ∧ t2.fac_ = u2.fac_ ∧ t2.operator_eq u2 = true :=
  ⟨by decide, by decide, rfl,
    by
      rw [show permSign term_interleaved.index_ term_outer.index_ = -1 from by decide]
      norm_num [term_interleaved, term_outer],
    by decide,
    C12_sorted_equal false term_interleaved term_outer (by decide) (by decide) rfl
      (by
        rw [show permSign term_interleaved.index_ term_outer.index_ = -1 from by decide]
        norm_num [term_interleaved, term_outer])
      (by decide)⟩


/-! ## `operator==` with the factor as a double -/

theorem Double.eq_swap (a b : Double) : a.eq b = b.eq a := by
  cases a <;> cases b <;> simp [Double.eq]
  exact ⟨Eq.symm, Eq.symm⟩

theorem Double.eq_self_of_ne_nan (a : Double) (h : a ≠ Double.nan) : a.eq a = true := by
  cases a <;> simp [Double.eq] at h ⊢

theorem Double.eq_finite (p q : ℚ) :
    (Double.finite p).eq (Double.finite q) = decide (p = q) := by
  simp [Double.eq]

theorem RDMfp.operator_eq_fp_iff (t u : RDMfp) :
    t.operator_eq u = true ↔
      t.fac_.eq u.fac_ = true ∧ t.delta_.length = u.delta_.length ∧
      t.index_.length = u.index_.length ∧
      ∀ k, k < t.index_.length →
        ∃ a b, t.index_[k]? = some a ∧ u.index_[k]? = some b ∧ a.identical b = true := by
  unfold RDMfp.operator_eq
  simp only [Bool.true_and]
  by_cases hlen : t.index_.length = u.index_.length
  · rw [if_pos hlen]
    cases hf : t.fac_.eq u.fac_
    · simp [eqLoop_false]
    · by_cases hd : t.delta_.length = u.delta_.length
      · simp only [hd, hlen, decide_True, Bool.and_self, true_and]
        rw [← hlen]
        exact eqLoop_true_iff t.index_ u.index_ hlen
      · simp [hd, hlen, eqLoop_false]
  · rw [if_neg hlen]
    simp [hlen]

theorem RDMfp.operator_eq_fp_imp_symm (t u : RDMfp) (h : t.operator_eq u = true) :
    u.operator_eq t = true := by
  rw [RDMfp.operator_eq_fp_iff] at h ⊢
  obtain ⟨hf, hd, hl, hall⟩ := h
  refine ⟨by rw [Double.eq_swap]; exact hf, hd.symm, hl.symm, ?_⟩
  intro k hk
  obtain ⟨a, b, ha, hb, hab⟩ := hall k (by omega)
  exact ⟨b, a, hb, ha, by rw [identical_comm]; exact hab⟩

theorem RDMfp.operator_eq_fp_comm (t u : RDMfp) : t.operator_eq u = u.operator_eq t := by
  cases h1 : t.operator_eq u
  · cases h2 : u.operator_eq t
    · rfl
    · rw [RDMfp.operator_eq_fp_imp_symm u t h2] at h1
      cases h1
  · exact (RDMfp.operator_eq_fp_imp_symm t u h1).symm

/-- On terms with finite factors the comparison of the factors as doubles is
the comparison of the rational embedding. -/
theorem operator_eq_toFp (t u : RDM) : t.toFp.operator_eq u.toFp = t.operator_eq u := by
  unfold RDMfp.operator_eq operator_eq
  simp only [toFp, factor, index, delta, Double.eq_finite]

/-- C11, as stated, fails: for the empty term with a NaN factor `t == t` is
false, because a NaN factor is not equal to itself. -/
theorem C11_counterexample : term_nan.operator_eq term_nan = false := by
  decide

/-- C11, amended: `operator==` is symmetric, `t == u` has the value of
`u == t` for every two terms; it is reflexive on the terms whose factor is not
NaN, for which `t == t` is true, and for a term whose factor is NaN `t == t` is
false. -/
theorem C11_operator_eq_symm_refl (t u : RDMfp) :
    t.operator_eq u = u.operator_eq t ∧
    (t.fac_ ≠ Double.nan → t.operator_eq t = true) ∧
    (t.fac_ = Double.nan → t.operator_eq t = false) := by
  refine ⟨RDMfp.operator_eq_fp_comm t u, ?_, ?_⟩
  · intro h
    rw [RDMfp.operator_eq_fp_iff]
    refine ⟨Double.eq_self_of_ne_nan t.fac_ h, rfl, rfl, ?_⟩
    intro k hk
    exact ⟨t.index_[k], t.index_[k], List.getElem?_eq_getElem hk,
      List.getElem?_eq_getElem hk, identical_self _⟩
  · intro h
    cases hr : t.operator_eq t
    · rfl
    · have := ((RDMfp.operator_eq_fp_iff t t).mp hr).1
      rw [h] at this
      simp [Double.eq] at this

theorem C11_operator_eq_symm_refl_witness :
    term_interleaved.toFp.fac_ ≠ Double.nan ∧
    term_interleaved.toFp.operator_eq term_interleaved.toFp = true ∧
    term_interleaved.toFp.operator_eq term_nan = term_nan.operator_eq term_interleaved.toFp :=
  ⟨by decide,
    (C11_operator_eq_symm_refl term_interleaved.toFp term_nan).2.1 (by decide),
    (C11_operator_eq_symm_refl term_interleaved.toFp term_nan).1⟩

end RDM

/-! ## The insertion into a string stream -/

namespace StringStream

/-- An insertion into a stream that is good, with the put position at the end
and field width 0, appends. -/
theorem insert_atEnd (s : StringStream) (x : List Char) (h : s.AtEnd) :
    s.insert x = ⟨s.text ++ x, s.text.length + x.length, true, 0, s.fill, s.left⟩ := by
  obtain ⟨hg, hp, hw⟩ := h
  unfold insert
  rw [if_pos hg]
  cases hl : s.left <;> simp [hp, hw]

theorem insert_atEnd_text (s : StringStream) (x : List Char) (h : s.AtEnd) :
    (s.insert x).str = s.str ++ x := by
  rw [insert_atEnd s x h]
  rfl

theorem atEnd_insert (s : StringStream) (x : List Char) (h : s.AtEnd) : (s.insert x).AtEnd := by
  rw [insert_atEnd s x h]
  exact ⟨rfl, by simp, rfl⟩

theorem atEnd_fresh : fresh.AtEnd := ⟨rfl, rfl, rfl⟩

theorem insert_nil_atEnd (s : StringStream) (h : s.AtEnd) : s.insert [] = s := by
  rw [insert_atEnd s [] h]
  obtain ⟨hg, hp, hw⟩ := h
  cases s
  simp only at hg hp hw
  simp [hg, hp, hw]

theorem insert_insert_atEnd (s a : StringStream) (x : List Char) (hs : s.AtEnd)
    (ha : a.AtEnd) : (s.insert a.str).insert x = s.insert (a.insert x).str := by
  rw [insert_atEnd_text a x ha, insert_atEnd s a.str hs,
    insert_atEnd _ x (by exact ⟨rfl, by simp, rfl⟩), insert_atEnd s _ hs]
  simp [Nat.add_assoc]

theorem atEnd_fresh_insert (x : List Char) : (fresh.insert x).AtEnd :=
  atEnd_insert fresh x atEnd_fresh

/-- After `str(std::string())`, `clear()` and an insertion a stream is good,
with the put position at the end and field width 0, whatever it was before. -/
theorem atEnd_reset_insert (s : StringStream) (x : List Char) :
    (((s.set_str []).clear).insert x).AtEnd := by
  unfold insert
  simp only [set_str, clear, if_true]
  refine ⟨rfl, ?_, rfl⟩
  simp

end StringStream

namespace OutStream

/-- C20, as stated, fails: after `o.ss.str("abc")` the put position of `o.ss`
is at the start of its text, and `o << a` with `"X"` in `a.ss` leaves `"Xbc"`
in `o.ss`, not `"abcX"`. -/
theorem C20_counterexample :
    (rewound.operator_shl letter).ss.str = ['X', 'b', 'c'] ∧
    (rewound.operator_shl letter).ss.str ≠ rewound.ss.str ++ letter.ss.str := by
  decide

/-- C20, amended: for `OutStream` values `o` and `a` whose streams are in the
state in which the constructors, `operator=` and `operator<<` leave a stream
(good, put position at the end of the text, field width 0), `o << a` leaves
every channel of `o` with its previous text followed by the text of the same
channel of `a`, again in that state, without mixing channels (`a` is a `const`
reference: the call produces a new value of `o` only). On such values merging
is associative, an empty `OutStream` is a right identity, and `empty << a` has
the texts of `a`. The empty `OutStream`, a copy and the target of an assignment
are in that state. -/
theorem C20_operator_shl_append (o a b : OutStream) (ho : o.AtEnd) (ha : a.AtEnd) :
    ((o.operator_shl a).ss.str = o.ss.str ++ a.ss.str ∧
      (o.operator_shl a).tt.str = o.tt.str ++ a.tt.str ∧
      (o.operator_shl a).cc.str = o.cc.str ++ a.cc.str ∧
      (o.operator_shl a).dd.str = o.dd.str ++ a.dd.str) ∧
    (o.operator_shl a).AtEnd ∧
    (o.operator_shl a).operator_shl b = o.operator_shl (a.operator_shl b) ∧
    ((empty.operator_shl a).ss.str = a.ss.str ∧ (empty.operator_shl a).tt.str = a.tt.str ∧
      (empty.operator_shl a).cc.str = a.cc.str ∧ (empty.operator_shl a).dd.str = a.dd.str) ∧
    o.operator_shl empty = o ∧
    empty.AtEnd ∧ (copy b).AtEnd ∧ (b.assign a).AtEnd := by
  obtain ⟨h1, h2, h3, h4⟩ := ho
  obtain ⟨k1, k2, k3, k4⟩ := ha
  refine ⟨⟨?_, ?_, ?_, ?_⟩, ⟨?_, ?_, ?_, ?_⟩, ?_, ⟨?_, ?_, ?_, ?_⟩, ?_, ?_, ?_, ?_⟩
  · exact StringStream.insert_atEnd_text _ _ h1
  · exact StringStream.insert_atEnd_text _ _ h2
  · exact StringStream.insert_atEnd_text _ _ h3
  · exact StringStream.insert_atEnd_text _ _ h4
  · exact StringStream.atEnd_insert _ _ h1
  · exact StringStream.atEnd_insert _ _ h2
  · exact StringStream.atEnd_insert _ _ h3
  · exact StringStream.atEnd_insert _ _ h4
  · simp only [operator_shl, StringStream.insert_insert_atEnd _ _ _ h1 k1,
      StringStream.insert_insert_atEnd _ _ _ h2 k2, StringStream.insert_insert_atEnd _ _ _ h3 k3,
      StringStream.insert_insert_atEnd _ _ _ h4 k4]
  · exact StringStream.insert_atEnd_text _ _ StringStream.atEnd_fresh
  · exact StringStream.insert_atEnd_text _ _ StringStream.atEnd_fresh
  · exact StringStream.insert_atEnd_text _ _ StringStream.atEnd_fresh
  · exact StringStream.insert_atEnd_text _ _ StringStream.atEnd_fresh
  · cases o
    simp only at h1 h2 h3 h4
    simp only [operator_shl, empty, StringStream.str, StringStream.fresh,
      StringStream.insert_nil_atEnd _ h1, StringStream.insert_nil_atEnd _ h2,
      StringStream.insert_nil_atEnd _ h3, StringStream.insert_nil_atEnd _ h4]
  · exact ⟨StringStream.atEnd_fresh, StringStream.atEnd_fresh, StringStream.atEnd_fresh,
      StringStream.atEnd_fresh⟩
  · exact ⟨StringStream.atEnd_fresh_insert _, StringStream.atEnd_fresh_insert _,
      StringStream.atEnd_fresh_insert _, StringStream.atEnd_fresh_insert _⟩
  · exact ⟨StringStream.atEnd_reset_insert _ _, StringStream.atEnd_reset_insert _ _,
      StringStream.atEnd_reset_insert _ _, StringStream.atEnd_reset_insert _ _⟩

theorem C20_operator_shl_append_witness :
    sample.AtEnd ∧ letter.AtEnd ∧
    ((sample.operator_shl letter).ss.str = sample.ss.str ++ letter.ss.str ∧
      (sample.operator_shl letter).tt.str = sample.tt.str ++ letter.tt.str ∧
      (sample.operator_shl letter).cc.str = sample.cc.str ++ letter.cc.str ∧
      (sample.operator_shl letter).dd.str = sample.dd.str ++ letter.dd.str) ∧
    (sample.operator_shl letter).AtEnd ∧
    (sample.operator_shl letter).operator_shl rewound =
      sample.operator_shl (letter.operator_shl rewound) ∧
    ((empty.operator_shl letter).ss.str = letter.ss.str ∧
      (empty.operator_shl letter).tt.str = letter.tt.str ∧
      (empty.operator_shl letter).cc.str = letter.cc.str ∧
      (empty.operator_shl letter).dd.str = letter.dd.str) ∧
    sample.operator_shl empty = sample ∧
    empty.AtEnd ∧ (copy rewound).AtEnd ∧ (rewound.assign letter).AtEnd :=
  ⟨by decide, by decide, C20_operator_shl_append sample letter rewound (by decide) (by decide)⟩

end OutStream

end smith
